import Mathlib

/-!
# mini_git: a shallow embedding of `git.c`

The program keeps a repository under `.minigit`: a content-addressed object
store, a staging index, one branch reference and a parent-linked chain of
commit records.  This file embeds the functions of `git.c` as Lean functions
over an explicit file-system state and proves properties of them.

Modelling conventions.

* A C string is the list of its characters before the terminator (`Str`).
  A `Char` stands for a non-NUL byte; the NUL byte, which only raw file
  contents can hold, is `Byte.nul`.  `cstr` reads a buffer as a C string the
  way `strlen`, `strtok` and `%s` do: up to the first NUL.
* The file system is a map from path strings to nodes.  Paths are compared as
  strings.  A file carries a read permission flag, so that `fopen(path, "r")`
  can fail on an existing regular file; write permissions are not modelled.
* Buffer capacities.  The local buffers that `cmd_commit` fills with unchecked
  `strcpy` and `sprintf` are modelled: `commit.message` (`MAX_MESSAGE`),
  `commit.timestamp` (32), `commit.parent` (`MAX_HASH`) and the record buffer
  `commit_content` (4096).  Where one of them cannot hold its string the
  behaviour of the C program is undefined and `cmd_commit` has no result
  (`none`).  The capacities of the fields of an index entry (`MAX_PATH`,
  `MAX_HASH`) are not modelled: the entries of type `IndexEntry` are taken to
  fit their fields.  The bound `MAX_FILES` on the number of entries is part
  of the control flow and is modelled.
* `SHA1` (OpenSSL) and the clock are parameters: the digest function, and the
  local time `localtime` returns, which `strftime` formats.
* Console output is the text a command prints, returned next to the new file
  system.
-/

namespace MiniGit

/-- C strings: the characters before the terminating NUL. -/
abbrev Str := List Char

/-- A byte of a raw file: NUL, or a character. -/
inductive Byte where
  | nul : Byte
  | ch (c : Char) : Byte
deriving DecidableEq

/-- The C string at the start of a buffer: the characters before the first NUL. -/
def cstr : List Byte → Str
  | [] => []
  | Byte.nul :: _ => []
  | Byte.ch c :: bs => c :: cstr bs

/-- The bytes of a C string, as `fprintf(file, "%s", content)` writes them. -/
def bytes (s : Str) : List Byte := s.map Byte.ch

def MAX_PATH : Nat := 1024

def MAX_HASH : Nat := 41

def MAX_MESSAGE : Nat := 256

def MAX_FILES : Nat := 100

/-- Source: `char timestamp[32]` in `struct Commit`. -/
def TIMESTAMP_SIZE : Nat := 32

/-- Source: `char commit_content[4096]` in `cmd_commit`. -/
def RECORD_SIZE : Nat := 4096

def SHA_DIGEST_LENGTH : Nat := 20

/-- Source: `typedef struct { char filename[MAX_PATH]; char hash[MAX_HASH]; } IndexEntry`. -/
structure IndexEntry where
  filename : Str
  hash : Str
deriving DecidableEq

/-- Source: `struct Commit`; `file_count` is the length of `files`. -/
structure Commit where
  hash : Str
  message : Str
  timestamp : Str
  parent : Str
  files : List IndexEntry
deriving DecidableEq

/-- The field `file_count` of a commit. -/
def Commit.file_count (c : Commit) : Nat := c.files.length

/-- A node of the file system: a directory, or a regular file with its read
permission and raw content. -/
inductive Node where
  | dir : Node
  | file (readable : Bool) (content : List Byte) : Node
deriving DecidableEq

/-- The file system: what `stat` finds at each path. -/
abbrev FS := Str → Option Node

/-! ## Paths -/

def minigit_dir : Str := ".minigit".toList
def objects_dir : Str := ".minigit/objects".toList
def refs_dir : Str := ".minigit/refs".toList
def heads_dir : Str := ".minigit/refs/heads".toList
def head_path : Str := ".minigit/HEAD".toList
def index_path : Str := ".minigit/index".toList
def main_path : Str := ".minigit/refs/heads/main".toList

/-- Source: `snprintf(object_path, ..., ".minigit/objects/%s", hash)`. -/
def object_path (hash : Str) : Str := ".minigit/objects/".toList ++ hash

/-! ## File helpers -/

/-- Source: `dir_exists`. -/
def dir_exists (fs : FS) (path : Str) : Bool :=
  match fs path with
  | some Node.dir => true
  | _ => false

/-- Source: `file_exists`. -/
def file_exists (fs : FS) (path : Str) : Bool :=
  match fs path with
  | some (Node.file _ _) => true
  | _ => false

/-- The directory part of a path: what precedes its last slash, if it has one. -/
def dirname (path : Str) : Option Str :=
  if '/' ∈ path then some ((path.reverse.dropWhile (fun c => c ≠ '/')).drop 1).reverse
  else none

/-- A new entry can be made at `path`: its directory exists (a path without a
slash lies in the working directory). -/
def parent_ok (fs : FS) (path : Str) : Bool :=
  match dirname path with
  | none => true
  | some d => dir_exists fs d

/-- Source: `create_dir` (`mkdir`): makes the directory when nothing is at
`path` and its parent exists; otherwise fails and changes nothing. -/
def create_dir (fs : FS) (path : Str) : FS :=
  match fs path with
  | none => if parent_ok fs path then Function.update fs path (some Node.dir) else fs
  | some _ => fs

/-- Source: `read_file`: `NULL` when `fopen(filepath, "r")` fails, otherwise
the buffer holding the file; callers read it as a C string. -/
def read_file (fs : FS) (filepath : Str) : Option Str :=
  match fs filepath with
  | some (Node.file true content) => some (cstr content)
  | _ => none

/-- Source: `write_file`: `fopen(filepath, "w")` then `fprintf("%s", content)`.
Returns the new file system and the status (`true` for 1, `false` for 0). -/
def write_file (fs : FS) (filepath content : Str) : FS × Bool :=
  match fs filepath with
  | some Node.dir => (fs, false)
  | some (Node.file r _) => (Function.update fs filepath (some (Node.file r (bytes content))), true)
  | none =>
    if parent_ok fs filepath then
      (Function.update fs filepath (some (Node.file true (bytes content))), true)
    else (fs, false)

/-! ## Hasher -/

/-- One lowercase hexadecimal digit. -/
def hex_digit (n : Nat) : Char :=
  if n < 10 then Char.ofNat (48 + n) else Char.ofNat (87 + n)

/-- Source: `sprintf(hash_output + (i * 2), "%02x", hash[i])` for one
`unsigned char`. -/
def hex2 (b : Nat) : Str := [hex_digit (b / 16), hex_digit (b % 16)]

/-- The `i`-th byte of the digest buffer `unsigned char hash[SHA_DIGEST_LENGTH]`
after `SHA1(content, strlen(content), hash)`. -/
def digest_byte (SHA1 : Str → List Nat) (content : Str) (i : Nat) : Nat :=
  (SHA1 content).getD i 0 % 256

/-- Source: `calculate_hash`. -/
def calculate_hash (SHA1 : Str → List Nat) (content : Str) : Str :=
  (List.range SHA_DIGEST_LENGTH).flatMap (fun i => hex2 (digest_byte SHA1 content i))

/-- Source: `write_object`. -/
def write_object (fs : FS) (hash content : Str) : FS × Bool :=
  write_file fs (object_path hash) content

/-- Source: `read_object`. -/
def read_object (fs : FS) (hash : Str) : Option Str :=
  read_file fs (object_path hash)

/-- Source: `strchr(content, '\n')` followed by `*newline = '\0'`: the string
up to its first newline. -/
def cut_at (d : Char) (s : Str) : Str := s.takeWhile (fun c => c ≠ d)

/-- Source: `get_head_commit`. -/
def get_head_commit (fs : FS) : Option Str :=
  if file_exists fs main_path then
    match read_file fs main_path with
    | some content => some (cut_at '\n' content)
    | none => none
  else none

/-! ## Tokenising -/

/-- The tokens `strtok` yields for a one-character delimiter set, scanning `s`
with the characters of the current token held (reversed) in `cur`: a token is
a maximal non-empty run of characters other than the delimiter. -/
def strtok_aux (d : Char) : Str → Str → List Str
  | [], cur => if cur = [] then [] else [cur.reverse]
  | c :: cs, cur =>
    if c = d then
      if cur = [] then strtok_aux d cs [] else cur.reverse :: strtok_aux d cs []
    else strtok_aux d cs (c :: cur)

/-- Source: the sequence `strtok(content, "\n")`, `strtok(NULL, "\n")`, ...
until it returns `NULL`. -/
def strtok (d : Char) (s : Str) : List Str := strtok_aux d s []

/-- Source: `char *space = strchr(line, ' '); if (space) { *space = '\0'; ... }`:
the part before the first `d` and the part after it, when `line` has a `d`. -/
def split_at (d : Char) (line : Str) : Option (Str × Str) :=
  if d ∈ line then
    some (line.takeWhile (fun c => c ≠ d), (line.dropWhile (fun c => c ≠ d)).drop 1)
  else none

/-! ## Staging index -/

/-- Source: the `while (line && count < MAX_FILES)` loop of `read_index`, over
the remaining lines, with the entries read so far. -/
def read_index_loop : List Str → List IndexEntry → List IndexEntry
  | [], entries => entries
  | line :: rest, entries =>
    if entries.length < MAX_FILES then
      match split_at ' ' line with
      | some (name, hash) => read_index_loop rest (entries ++ [⟨name, hash⟩])
      | none => read_index_loop rest entries
    else entries

/-- The entries `read_index` parses from the text of the index file. -/
def parse_index (content : Str) : List IndexEntry :=
  read_index_loop (strtok '\n' content) []

/-- Source: `read_index`; the result is `entries[0..count)`. -/
def read_index (fs : FS) : List IndexEntry :=
  match read_file fs index_path with
  | none => []
  | some content => parse_index content

/-- Source: `fprintf(file, "%s %s\n", entries[i].filename, entries[i].hash)`. -/
def index_line (e : IndexEntry) : Str := e.filename ++ ' ' :: e.hash ++ ['\n']

/-- The text `write_index` writes. -/
def index_content (entries : List IndexEntry) : Str := entries.flatMap index_line

/-- Source: `write_index`. -/
def write_index (fs : FS) (entries : List IndexEntry) : FS :=
  (write_file fs index_path (index_content entries)).1

/-- Source: the `for` loop of `cmd_add` looking for `filepath`: the entries with
the hash of the first entry named `filepath` replaced, or `none` when
`found` stays 0. -/
def replace_hash (filepath hash : Str) : List IndexEntry → Option (List IndexEntry)
  | [] => none
  | e :: es =>
    if e.filename = filepath then some ({ e with hash := hash } :: es)
    else (replace_hash filepath hash es).map (fun r => e :: r)

/-- Source: "Find existing entry or add new one" in `cmd_add`. -/
def stage (entries : List IndexEntry) (filepath hash : Str) : List IndexEntry :=
  match replace_hash filepath hash entries with
  | some es => es
  | none =>
    if entries.length < MAX_FILES then entries ++ [⟨filepath, hash⟩] else entries

/-! ## Commands -/

def msg_not_a_repository : Str := "Not a repository. Run 'init' first.\n".toList

/-- Source: `cmd_init`. -/
def cmd_init (fs : FS) : FS × Str :=
  if dir_exists fs minigit_dir then (fs, "Repository already exists!\n".toList)
  else
    let fs1 := create_dir fs minigit_dir
    let fs2 := create_dir fs1 objects_dir
    let fs3 := create_dir fs2 refs_dir
    let fs4 := create_dir fs3 heads_dir
    let fs5 := (write_file fs4 head_path "ref: refs/heads/main\n".toList).1
    let fs6 := (write_file fs5 index_path []).1
    (fs6, "Initialized empty repository in .minigit\n".toList)

/-- Source: `cmd_add`. -/
def cmd_add (SHA1 : Str → List Nat) (fs : FS) (filepath : Str) : FS × Str :=
  if !dir_exists fs minigit_dir then (fs, msg_not_a_repository)
  else if !file_exists fs filepath then
    (fs, "File '".toList ++ filepath ++ "' not found\n".toList)
  else
    match read_file fs filepath with
    | none => (fs, "Could not read file '".toList ++ filepath ++ "'\n".toList)
    | some content =>
      let hash := calculate_hash SHA1 content
      let fs1 := (write_object fs hash content).1
      let entries := read_index fs1
      let fs2 := write_index fs1 (stage entries filepath hash)
      (fs2, "Added '".toList ++ filepath ++ "' to staging area\n".toList)

/-- Source: `sprintf(..., "  %s %s\n", commit.files[i].filename, commit.files[i].hash)`. -/
def file_line (e : IndexEntry) : Str := "  ".toList ++ e.filename ++ ' ' :: e.hash ++ ['\n']

/-- Source: "Serialize commit to string" in `cmd_commit`: the text of
`commit_content`. -/
def commit_content (c : Commit) : Str :=
  "message: ".toList ++ c.message ++ '\n' ::
  ("timestamp: ".toList ++ c.timestamp ++ '\n' ::
  ("parent: ".toList ++ c.parent ++ '\n' ::
  ("files:\n".toList ++ c.files.flatMap file_line)))

/-- The local time `localtime` returns, as the numbers `strftime` prints: the
year with its century, the month from 1, the day of the month, hour, minute
and second. -/
structure Tm where
  year : Nat
  month : Nat
  day : Nat
  hour : Nat
  minute : Nat
  second : Nat
deriving DecidableEq

/-- A number in decimal, zero-padded to two digits (`%m`, `%d`, `%H`, `%M`, `%S`). -/
def dec2 (n : Nat) : Str := List.leftpad 2 '0' (Nat.toDigits 10 n)

/-- Source: `strftime(commit.timestamp, sizeof(commit.timestamp),
"%Y-%m-%d %H:%M:%S", tm_info)`: the text written. -/
def strftime (t : Tm) : Str :=
  Nat.toDigits 10 t.year ++ '-' :: (dec2 t.month ++ '-' :: (dec2 t.day ++ ' ' ::
    (dec2 t.hour ++ ':' :: (dec2 t.minute ++ ':' :: dec2 t.second))))

/-- Source: the local `Commit commit` of `cmd_commit` once its fields are
filled: the message, the timestamp, the parent read from the branch reference
(empty when there is none) and the staged entries.  The field `hash` is never
assigned by the source and is left empty here. -/
def built_commit (fs : FS) (message : Str) (now : Tm) : Commit :=
  { hash := [], message := message, timestamp := strftime now,
    parent := (get_head_commit fs).getD [],
    files := read_index fs }

/-- The record `cmd_commit` serializes in the state `fs`. -/
def commit_record (fs : FS) (message : Str) (now : Tm) : Str :=
  commit_content (built_commit fs message now)

/-- The buffers of `cmd_commit` hold the strings copied into them, each with
its terminator: the message (`strcpy` into `commit.message`), the timestamp
(`strftime` into `commit.timestamp`), the parent (`strcpy` into
`commit.parent`) and the record (`sprintf` into `commit_content`). -/
def commit_fits (fs : FS) (message : Str) (now : Tm) : Prop :=
  message.length < MAX_MESSAGE ∧ (strftime now).length < TIMESTAMP_SIZE ∧
  (built_commit fs message now).parent.length < MAX_HASH ∧
  (commit_record fs message now).length < RECORD_SIZE

instance (fs : FS) (message : Str) (now : Tm) : Decidable (commit_fits fs message now) := by
  unfold commit_fits
  infer_instance

/-- Source: `cmd_commit`; `now` is the local time.  The result is `none` where
the source copies a string into a buffer that cannot hold it (undefined
behaviour), see `commit_fits`. -/
def cmd_commit (SHA1 : Str → List Nat) (fs : FS) (message : Str) (now : Tm) :
    Option (FS × Str) :=
  if !dir_exists fs minigit_dir then some (fs, msg_not_a_repository)
  else
    let entries := read_index fs
    if entries.length = 0 then some (fs, "Nothing to commit\n".toList)
    else if commit_fits fs message now then
      let commit := built_commit fs message now
      let content := commit_content commit
      let commit_hash := calculate_hash SHA1 content
      let fs1 := (write_object fs commit_hash content).1
      let fs2 := (write_file fs1 main_path commit_hash).1
      let fs3 := (write_file fs2 index_path []).1
      some (fs3,
        "Committed changes: ".toList ++ commit_hash.take 7 ++ " - ".toList ++ message ++ ['\n'])
    else none

/-- Source: `cmd_status`. -/
def cmd_status (fs : FS) : FS × Str :=
  if !dir_exists fs minigit_dir then (fs, msg_not_a_repository)
  else
    let entries := read_index fs
    (fs, "Repository Status:\n==============================\nOn branch: main\n".toList ++
      (if entries.length > 0 then
        "\nStaged files:\n".toList ++
          entries.flatMap (fun e => "  + ".toList ++ e.filename ++ ['\n'])
       else []) ++ ['\n'])

/-- Source: `memset(&commit, 0, sizeof(commit))`. -/
def Commit.zero : Commit :=
  { hash := [], message := [], timestamp := [], parent := [], files := [] }

/-- Source: the body of the `while (line)` loop of `parse_commit`, for one line. -/
def parse_line (st : Commit × Bool) (line : Str) : Commit × Bool :=
  if "message: ".toList.isPrefixOf line then ({ st.1 with message := line.drop 9 }, st.2)
  else if "timestamp: ".toList.isPrefixOf line then ({ st.1 with timestamp := line.drop 11 }, st.2)
  else if "parent: ".toList.isPrefixOf line then ({ st.1 with parent := line.drop 8 }, st.2)
  else if line = "files:".toList then (st.1, true)
  else if st.2 && "  ".toList.isPrefixOf line then
    match split_at ' ' (line.drop 2) with
    | some (name, hash) =>
      if st.1.files.length < MAX_FILES then
        ({ st.1 with files := st.1.files ++ [⟨name, hash⟩] }, st.2)
      else st
    | none => st
  else st

/-- Source: `parse_commit`. -/
def parse_commit (content : Str) : Commit :=
  ((strtok '\n' content).foldl parse_line (Commit.zero, false)).1

/-- The number of commits `cmd_log` shows at most (`count < 10`). -/
def LOG_LIMIT : Nat := 10

/-- Source: the `while (commit_hash && strlen(commit_hash) > 0 && count < 10)`
loop of `cmd_log`: the commits it visits, each with the hash it was read
under.  The first argument is the number of iterations left, `10 - count`;
`none` is the `NULL` pointer. -/
def log_walk (fs : FS) : Nat → Option Str → List (Str × Commit)
  | 0, _ => []
  | _ + 1, none => []
  | n + 1, some commit_hash =>
    if commit_hash.length > 0 then
      match read_object fs commit_hash with
      | none => []
      | some commit_content =>
        let commit := parse_commit commit_content
        (commit_hash, commit) ::
          log_walk fs n (if commit.parent.length > 0 then some commit.parent else none)
    else []

/-- Source: what one iteration of the loop of `cmd_log` prints. -/
def log_entry (commit_hash : Str) (commit : Commit) : Str :=
  "Commit: ".toList ++ commit_hash.take 7 ++ '\n' ::
  ("Date: ".toList ++ commit.timestamp ++ '\n' ::
  ("Message: ".toList ++ commit.message ++ '\n' ::
  ((if commit.files.length > 0 then
      "Files:\n".toList ++ commit.files.flatMap (fun e => "  - ".toList ++ e.filename ++ ['\n'])
    else []) ++
  "----------------------------------------\n".toList)))

def log_header : Str :=
  "Commit History:\n========================================\n".toList

/-- Source: `cmd_log`. -/
def cmd_log (fs : FS) : FS × Str :=
  if !dir_exists fs minigit_dir then (fs, msg_not_a_repository)
  else
    match get_head_commit fs with
    | none => (fs, "No commits yet\n".toList)
    | some commit_hash =>
      (fs, log_header ++
        (log_walk fs LOG_LIMIT (some commit_hash)).flatMap (fun hc => log_entry hc.1 hc.2))

/-- The result of running the program: file system, console output, exit status. -/
structure Run where
  fs : FS
  out : Str
  status : Nat

/-- Source: `main`; `argv` holds `argc` strings.  The result is `none` where
`cmd_commit` has none. -/
def main (SHA1 : Str → List Nat) (now : Tm) (fs : FS) (argv : List Str) : Option Run :=
  match argv with
  | [] | [_] =>
    some ⟨fs, "Usage: ".toList ++ argv.headD "(null)".toList ++
      " <command> [args...]\nCommands: init, add, commit, status, log\n".toList, 1⟩
  | _ :: command :: args =>
    if command = "init".toList then
      let r := cmd_init fs
      some ⟨r.1, r.2, 0⟩
    else if command = "add".toList then
      match args with
      | [] => some ⟨fs, "Usage: add <filepath>\n".toList, 1⟩
      | filepath :: _ =>
        let r := cmd_add SHA1 fs filepath
        some ⟨r.1, r.2, 0⟩
    else if command = "commit".toList then
      match args with
      | [] => some ⟨fs, "Usage: commit <message>\n".toList, 1⟩
      | message :: _ =>
        match cmd_commit SHA1 fs message now with
        | some r => some ⟨r.1, r.2, 0⟩
        | none => none
    else if command = "status".toList then
      let r := cmd_status fs
      some ⟨r.1, r.2, 0⟩
    else if command = "log".toList then
      let r := cmd_log fs
      some ⟨r.1, r.2, 0⟩
    else some ⟨fs, "Unknown command: ".toList ++ command ++ ['\n'], 1⟩

/-! ## Predicates and example data used by the theorems -/

/-- The path is the repository directory `.minigit` or lies below it. -/
def inside (path : Str) : Prop := path = minigit_dir ∨ ".minigit/".toList <+: path

instance (path : Str) : Decidable (inside path) := by
  unfold inside
  infer_instance

/-- An initialised repository: the directories `cmd_init` makes exist, and the
index, the branch reference and every object are, where present, readable
regular files. -/
structure Repo (fs : FS) : Prop where
  root : fs minigit_dir = some Node.dir
  objects : fs objects_dir = some Node.dir
  heads : fs heads_dir = some Node.dir
  index : fs index_path = none ∨ ∃ c, fs index_path = some (Node.file true c)
  main : fs main_path = none ∨ ∃ c, fs main_path = some (Node.file true c)
  object : ∀ h, fs (object_path h) = none ∨ ∃ c, fs (object_path h) = some (Node.file true c)

/-- An index entry that survives the line format of the index file: no space
or newline in the path, no newline in the fingerprint. -/
def IndexEntry.well_formed (e : IndexEntry) : Prop :=
  ' ' ∉ e.filename ∧ '\n' ∉ e.filename ∧ '\n' ∉ e.hash

instance (e : IndexEntry) : Decidable e.well_formed := by
  unfold IndexEntry.well_formed
  infer_instance

/-- The empty directory. -/
def fs_empty : FS := fun _ => none

/-- A small digest function for concrete examples: the length of the content
as the first digest byte. -/
def toy_sha (s : Str) : List Nat := [s.length]

/-- The user saves a readable regular file `path` with the given raw content. -/
def user_save (fs : FS) (path : Str) (content : List Byte) : FS :=
  Function.update fs path (some (Node.file true content))

/-- An initialised repository with one working file `a.txt` holding `hello`. -/
def fs_hello : FS := user_save (cmd_init fs_empty).1 "a.txt".toList (bytes "hello".toList)

/-- A corrupted store whose parent links form a cycle: the object `aa` names
`bb` as its parent, the object `bb` names `aa`, and the branch points to `aa`. -/
def fs_cycle : FS :=
  Function.update
    (Function.update
      (Function.update (cmd_init fs_empty).1 (object_path "aa".toList)
        (some (Node.file true (bytes "message: a\nparent: bb\nfiles:\n".toList))))
      (object_path "bb".toList)
      (some (Node.file true (bytes "message: b\nparent: aa\nfiles:\n".toList))))
    main_path (some (Node.file true (bytes "aa".toList)))

/-- A store whose tip commit `aa` names a parent `bb` that is not in the store. -/
def fs_dangling : FS :=
  Function.update
    (Function.update (cmd_init fs_empty).1 (object_path "aa".toList)
      (some (Node.file true
        (bytes "message: m\ntimestamp: t\nparent: bb\nfiles:\n  a.txt 0a\n".toList))))
    main_path (some (Node.file true (bytes "aa".toList)))

/-- An initialised repository with a working file that cannot be read. -/
def fs_locked : FS :=
  Function.update (cmd_init fs_empty).1 "secret.txt".toList
    (some (Node.file false (bytes "x".toList)))

/-- A commit as `cmd_commit` builds it: a timestamp and a parent without
newline, and entries as `read_index` returns them. -/
def Commit.well_formed (c : Commit) : Prop :=
  '\n' ∉ c.timestamp ∧ '\n' ∉ c.parent ∧ ∀ e ∈ c.files, e.well_formed

/-- One action on the working directory: a run of the program with `init`,
`add` or `commit` (at the local time `now`), or the user saving a working
file. -/
inductive Step where
  | init : Step
  | save (path : Str) (content : List Byte) : Step
  | add (path : Str) : Step
  | commit (message : Str) (now : Tm) : Step
deriving DecidableEq

/-- The user saves working files only: neither `.minigit` nor a path below it. -/
def Step.outside : Step → Prop
  | Step.save path _ => ¬ inside path
  | _ => True

instance (s : Step) : Decidable s.outside := by
  cases s <;> unfold Step.outside <;> infer_instance

/-- The file system after one action; none where `cmd_commit` has no result. -/
def step (SHA1 : Str → List Nat) (fs : FS) : Step → Option FS
  | Step.init => some (cmd_init fs).1
  | Step.save path content => some (user_save fs path content)
  | Step.add path => some (cmd_add SHA1 fs path).1
  | Step.commit message now =>
    match cmd_commit SHA1 fs message now with
    | some r => some r.1
    | none => none

/-- The file system after a sequence of actions; none where one of them has no
result. -/
def run (SHA1 : Str → List Nat) : FS → List Step → Option FS
  | fs, [] => some fs
  | fs, s :: rest =>
    match step SHA1 fs s with
    | some next => run SHA1 next rest
    | none => none

/-- The lines of a record after the message line, without their newlines. -/
def tail_lines (c : Commit) : List Str :=
  ("timestamp: ".toList ++ c.timestamp) :: ("parent: ".toList ++ c.parent) :: "files:".toList ::
    c.files.map (fun e => "  ".toList ++ e.filename ++ ' ' :: e.hash)

/-- A list of commit records, newest first, is linked: the parent read from
each record is the fingerprint of the next record, and the parent of the
oldest one is empty. -/
def Linked (SHA1 : Str → List Nat) : List Str → Prop
  | [] => True
  | [r] => (parse_commit r).parent = []
  | r :: r' :: rest =>
    (parse_commit r).parent = calculate_hash SHA1 r' ∧ Linked SHA1 (r' :: rest)

/-- The digest has no collision among the contents of a list. -/
def CollisionFree (SHA1 : Str → List Nat) (contents : List Str) : Prop :=
  ∀ a ∈ contents, ∀ b ∈ contents, calculate_hash SHA1 a = calculate_hash SHA1 b → a = b

instance (SHA1 : Str → List Nat) (contents : List Str) :
    Decidable (CollisionFree SHA1 contents) := by
  unfold CollisionFree
  infer_instance

/-- A history: a repository is initialised, `a.txt` is committed ("first"),
then `a.txt` is changed, `b.txt` is created and both are staged. -/
def staged_steps : List Step :=
  [Step.init, Step.save "a.txt".toList (bytes "hello".toList), Step.add "a.txt".toList,
   Step.commit "first".toList ⟨2024, 1, 1, 9, 30, 0⟩,
   Step.save "a.txt".toList (bytes "hello again".toList),
   Step.save "b.txt".toList (bytes "bye".toList),
   Step.add "a.txt".toList, Step.add "b.txt".toList]

/-- The repository after `staged_steps`: one commit made, two entries staged. -/
def fs_staged : FS := (run toy_sha fs_empty staged_steps).getD fs_empty

/-- The names `f0 .. f99`. -/
def hundred_paths : List Str := (List.range 100).map (fun i => 'f' :: Nat.toDigits 10 i)

/-- Each of the working files `paths` is saved, holding `x`, and staged with
`cmd_add`. -/
def add_files (SHA1 : Str → List Nat) (fs : FS) (paths : List Str) : FS :=
  paths.foldl (fun s p => (cmd_add SHA1 (user_save s p (bytes "x".toList)) p).1) fs

set_option maxRecDepth 100000 in
theorem hex2_eq_toDigits : ∀ b, b < 256 → hex2 b = List.leftpad 2 '0' (Nat.toDigits 16 b) := by
  decide

set_option maxRecDepth 100000 in
theorem hex2_mem : ∀ b, b < 256 → ∀ c ∈ hex2 b, c ∈ "0123456789abcdef".toList := by
  decide

theorem digest_byte_lt (SHA1 : Str → List Nat) (content : Str) (i : Nat) :
    digest_byte SHA1 content i < 256 := by
  unfold digest_byte
  exact Nat.mod_lt _ (by decide)

theorem length_flatMap_hex2 (f : Nat → Nat) (l : List Nat) :
    (l.flatMap (fun i => hex2 (f i))).length = 2 * l.length := by
  induction l with
  | nil => rfl
  | cons a l ih =>
    rw [List.flatMap_cons, List.length_append, ih]
    simp only [hex2, List.length_cons, List.length_nil]
    omega

theorem calculate_hash_length (SHA1 : Str → List Nat) (content : Str) :
    (calculate_hash SHA1 content).length = 40 := by
  unfold calculate_hash
  rw [length_flatMap_hex2]
  simp [SHA_DIGEST_LENGTH]

theorem calculate_hash_mem (SHA1 : Str → List Nat) (content : Str) :
    ∀ c ∈ calculate_hash SHA1 content, c ∈ "0123456789abcdef".toList := by
  intro c hc
  simp only [calculate_hash, List.mem_flatMap] at hc
  obtain ⟨i, _, hi⟩ := hc
  exact hex2_mem _ (digest_byte_lt SHA1 content i) c hi

/-- C20: for every content, `calculate_hash` yields exactly 40 characters, each
a lowercase hexadecimal digit, which are the two-digit hexadecimal encodings
(zero-padded, in order) of the 20 digest bytes; so the fingerprint holds no
space, newline or path separator. -/
theorem calculate_hash_format (SHA1 : Str → List Nat) (content : Str) :
    (calculate_hash SHA1 content).length = 40 ∧
    (∀ c ∈ calculate_hash SHA1 content, c ∈ "0123456789abcdef".toList) ∧
    calculate_hash SHA1 content =
      (List.range 20).flatMap
        (fun i => List.leftpad 2 '0' (Nat.toDigits 16 (digest_byte SHA1 content i))) ∧
    ' ' ∉ calculate_hash SHA1 content ∧
    '\n' ∉ calculate_hash SHA1 content ∧
    '/' ∉ calculate_hash SHA1 content := by
  refine ⟨calculate_hash_length SHA1 content, calculate_hash_mem SHA1 content, ?_, ?_, ?_, ?_⟩
  · unfold calculate_hash SHA_DIGEST_LENGTH
    congr 1
    funext i
    exact hex2_eq_toDigits _ (digest_byte_lt SHA1 content i)
  · intro h
    exact absurd (calculate_hash_mem SHA1 content _ h) (by decide)
  · intro h
    exact absurd (calculate_hash_mem SHA1 content _ h) (by decide)
  · intro h
    exact absurd (calculate_hash_mem SHA1 content _ h) (by decide)

/-! ## C strings and bytes -/

theorem cstr_bytes (s : Str) : cstr (bytes s) = s := by
  induction s with
  | nil => rfl
  | cons c cs ih => simp only [bytes, List.map_cons, cstr] at ih ⊢; rw [ih]

/-! ## Reading and writing files -/

theorem dropWhile_append_all {α : Type} (p : α → Bool) (l r : List α)
    (h : ∀ a ∈ l, p a = true) : (l ++ r).dropWhile p = r.dropWhile p := by
  induction l with
  | nil => rfl
  | cons a l ih =>
    have ha : p a = true := h a (List.mem_cons_self a l)
    simp only [List.cons_append, List.dropWhile_cons, ha, if_true]
    exact ih (fun b hb => h b (List.mem_cons_of_mem a hb))

theorem dirname_object_path (h : Str) (hs : '/' ∉ h) :
    dirname (object_path h) = some objects_dir := by
  have hmem : '/' ∈ object_path h := by simp [object_path]
  unfold dirname
  rw [if_pos hmem]
  have hrev : (object_path h).reverse = h.reverse ++ "/stcejbo/tiginim.".toList := by
    simp [object_path]
  rw [hrev, dropWhile_append_all]
  · decide
  · intro a ha
    have : a ≠ '/' := fun e => hs (e ▸ List.mem_reverse.mp ha)
    simpa using this

theorem write_file_ok (fs : FS) (p c : Str)
    (h1 : fs p = none ∨ ∃ x, fs p = some (Node.file true x)) (h2 : parent_ok fs p = true) :
    write_file fs p c = (Function.update fs p (some (Node.file true (bytes c))), true) := by
  unfold write_file
  rcases h1 with h | ⟨x, h⟩
  · simp [h, h2]
  · simp [h]

theorem Repo.write_index {fs : FS} (hr : Repo fs) (c : Str) :
    write_file fs index_path c =
      (Function.update fs index_path (some (Node.file true (bytes c))), true) := by
  apply write_file_ok _ _ _ hr.index
  have : dirname index_path = some minigit_dir := by decide
  simp [parent_ok, this, dir_exists, hr.root]

theorem Repo.write_main {fs : FS} (hr : Repo fs) (c : Str) :
    write_file fs main_path c =
      (Function.update fs main_path (some (Node.file true (bytes c))), true) := by
  apply write_file_ok _ _ _ hr.main
  have : dirname main_path = some heads_dir := by decide
  simp [parent_ok, this, dir_exists, hr.heads]

theorem Repo.write_object {fs : FS} (hr : Repo fs) (h c : Str) (hs : '/' ∉ h) :
    write_object fs h c =
      (Function.update fs (object_path h) (some (Node.file true (bytes c))), true) := by
  apply write_file_ok _ _ _ (hr.object h)
  simp [parent_ok, dirname_object_path h hs, dir_exists, hr.objects]

/-! ## Tokenising -/

theorem strtok_aux_line (d : Char) (l rest cur : Str) (hl : d ∉ l) :
    strtok_aux d (l ++ d :: rest) cur =
      if cur.reverse ++ l = [] then strtok_aux d rest []
      else (cur.reverse ++ l) :: strtok_aux d rest [] := by
  induction l generalizing cur with
  | nil =>
    simp only [List.nil_append, List.append_nil, strtok_aux, if_true, List.reverse_eq_nil_iff]
  | cons c cs ih =>
    have hc : c ≠ d := fun e => hl (e ▸ List.mem_cons_self c cs)
    have hcs : d ∉ cs := fun h => hl (List.mem_cons_of_mem c h)
    simp only [List.cons_append, strtok_aux, if_neg hc, List.append_eq]
    rw [ih (c :: cur) hcs]
    simp

theorem strtok_lines (d : Char) (ls : List Str) (h : ∀ l ∈ ls, l ≠ [] ∧ d ∉ l) :
    strtok d (ls.flatMap (fun l => l ++ [d])) = ls := by
  unfold strtok
  induction ls with
  | nil => rfl
  | cons l ls ih =>
    have hl := h l (List.mem_cons_self l ls)
    rw [List.flatMap_cons, List.append_assoc, List.singleton_append,
      strtok_aux_line d l _ [] hl.2]
    simp only [List.reverse_nil, List.nil_append, if_neg hl.1]
    rw [ih (fun x hx => h x (List.mem_cons_of_mem l hx))]

theorem strtok_aux_no_delim (d : Char) (s cur : Str) (hcur : d ∉ cur) :
    ∀ t ∈ strtok_aux d s cur, d ∉ t := by
  induction s generalizing cur with
  | nil =>
    intro t ht
    simp only [strtok_aux] at ht
    split at ht
    · simp at ht
    · simp only [List.mem_singleton] at ht
      subst ht
      simpa using hcur
  | cons c cs ih =>
    intro t ht
    simp only [strtok_aux] at ht
    split at ht
    · split at ht
      · exact ih [] (by simp) t ht
      · rcases List.mem_cons.mp ht with h | h
        · subst h; simpa using hcur
        · exact ih [] (by simp) t h
    · rename_i hne
      refine ih (c :: cur) ?_ t ht
      intro hmem
      rcases List.mem_cons.mp hmem with h | h
      · exact hne h.symm
      · exact hcur h

theorem strtok_no_delim (d : Char) (s : Str) : ∀ t ∈ strtok d s, d ∉ t :=
  strtok_aux_no_delim d s [] (by simp)

theorem split_at_join (d : Char) (a b : Str) (ha : d ∉ a) :
    split_at d (a ++ d :: b) = some (a, b) := by
  unfold split_at
  rw [if_pos (by simp)]
  have h1 : (a ++ d :: b).takeWhile (fun c => c ≠ d) = a := by
    induction a with
    | nil => simp [List.takeWhile]
    | cons x xs ih =>
      have hx : x ≠ d := fun e => ha (e ▸ List.mem_cons_self x xs)
      simp only [List.cons_append, List.takeWhile_cons]
      simp only [ne_eq, hx, not_false_eq_true, decide_True, if_true]
      rw [ih (fun h => ha (List.mem_cons_of_mem x h))]
  have h2 : (a ++ d :: b).dropWhile (fun c => c ≠ d) = d :: b := by
    rw [dropWhile_append_all]
    · simp [List.dropWhile]
    · intro x hx
      have : x ≠ d := fun e => ha (e ▸ hx)
      simpa using this
  rw [h1, h2]
  rfl

theorem split_at_some (d : Char) (line a b : Str) (h : split_at d line = some (a, b)) :
    line = a ++ d :: b ∧ d ∉ a := by
  unfold split_at at h
  split at h
  · rename_i hmem
    simp only [Option.some.injEq, Prod.mk.injEq] at h
    obtain ⟨h1, h2⟩ := h
    have hd : ∃ r, line.dropWhile (fun c => c ≠ d) = d :: r := by
      clear h1 h2
      induction line with
      | nil => simp at hmem
      | cons x xs ih =>
        by_cases hx : x = d
        · subst hx
          exact ⟨xs, by simp [List.dropWhile]⟩
        · have hm : d ∈ xs := by
            rcases List.mem_cons.mp hmem with e | e
            · exact absurd e.symm hx
            · exact e
          obtain ⟨r, hr⟩ := ih hm
          exact ⟨r, by simp only [List.dropWhile_cons]; simpa [hx] using hr⟩
    obtain ⟨r, hr⟩ := hd
    rw [hr] at h2
    simp only [List.drop_succ_cons, List.drop_zero] at h2
    subst h2
    refine ⟨?_, ?_⟩
    · have := List.takeWhile_append_dropWhile (fun c => decide (c ≠ d)) line
      rw [h1, hr] at this
      exact this.symm
    · rw [← h1]
      intro hm
      have := List.mem_takeWhile_imp hm
      simp at this
  · simp at h

/-! ## The index file format -/

theorem index_content_lines (es : List IndexEntry) :
    index_content es =
      (es.map (fun e => e.filename ++ ' ' :: e.hash)).flatMap (fun l => l ++ ['\n']) := by
  induction es with
  | nil => rfl
  | cons e es ih =>
    simp only [index_content, List.flatMap_cons, List.map_cons, index_line] at ih ⊢
    rw [ih]

theorem read_index_loop_lines (es acc : List IndexEntry)
    (hlen : acc.length + es.length ≤ MAX_FILES) (hsp : ∀ e ∈ es, ' ' ∉ e.filename) :
    read_index_loop (es.map (fun e => e.filename ++ ' ' :: e.hash)) acc = acc ++ es := by
  induction es generalizing acc with
  | nil => simp [read_index_loop]
  | cons e es ih =>
    have h1 : acc.length < MAX_FILES := by
      simp only [List.length_cons] at hlen; omega
    simp only [List.map_cons, read_index_loop, if_pos h1,
      split_at_join ' ' e.filename e.hash (hsp e (List.mem_cons_self e es))]
    rw [ih]
    · simp
    · simp only [List.length_append, List.length_cons, List.length_nil] at hlen ⊢; omega
    · exact fun x hx => hsp x (List.mem_cons_of_mem e hx)

theorem parse_index_content (es : List IndexEntry) (hlen : es.length ≤ MAX_FILES)
    (hwf : ∀ e ∈ es, e.well_formed) : parse_index (index_content es) = es := by
  unfold parse_index
  rw [index_content_lines, strtok_lines]
  · rw [read_index_loop_lines es [] (by simpa using hlen) (fun e he => (hwf e he).1)]
    rfl
  · intro l hl
    obtain ⟨e, he, rfl⟩ := List.mem_map.mp hl
    obtain ⟨_, h2, h3⟩ := hwf e he
    refine ⟨by simp, ?_⟩
    intro hm
    rcases List.mem_append.mp hm with h | h
    · exact h2 h
    · rcases List.mem_cons.mp h with h | h
      · exact absurd h (by decide)
      · exact h3 h

theorem read_index_loop_length (lines : List Str) (acc : List IndexEntry)
    (hacc : acc.length ≤ MAX_FILES) : (read_index_loop lines acc).length ≤ MAX_FILES := by
  induction lines generalizing acc with
  | nil => simpa [read_index_loop] using hacc
  | cons l ls ih =>
    simp only [read_index_loop]
    split
    · rename_i hlt
      split
      · apply ih
        simp only [List.length_append, List.length_cons, List.length_nil]; omega
      · exact ih acc hacc
    · exact hacc

theorem parse_index_length (content : Str) : (parse_index content).length ≤ MAX_FILES :=
  read_index_loop_length _ [] (by simp)

theorem read_index_length (fs : FS) : (read_index fs).length ≤ MAX_FILES := by
  unfold read_index
  split
  · simp
  · exact parse_index_length _

theorem read_index_loop_wf (lines : List Str) (acc : List IndexEntry)
    (hl : ∀ l ∈ lines, '\n' ∉ l) (hacc : ∀ e ∈ acc, e.well_formed) :
    ∀ e ∈ read_index_loop lines acc, e.well_formed := by
  induction lines generalizing acc with
  | nil => simpa [read_index_loop] using hacc
  | cons l ls ih =>
    have hls : ∀ x ∈ ls, '\n' ∉ x := fun x hx => hl x (List.mem_cons_of_mem l hx)
    simp only [read_index_loop]
    split
    · split
      · rename_i name hash hsplit
        obtain ⟨heq, hsp⟩ := split_at_some ' ' l name hash hsplit
        have hnl : '\n' ∉ l := hl l (List.mem_cons_self l ls)
        apply ih _ hls
        intro e he
        rcases List.mem_append.mp he with h | h
        · exact hacc e h
        · simp only [List.mem_singleton] at h
          subst h
          rw [heq] at hnl
          refine ⟨hsp, fun h => hnl (by simp [h]), fun h => hnl (by simp [h])⟩
      · exact ih acc hls hacc
    · exact hacc

theorem parse_index_wf (content : Str) : ∀ e ∈ parse_index content, e.well_formed :=
  read_index_loop_wf _ [] (strtok_no_delim '\n' content) (by simp)

theorem read_index_wf (fs : FS) : ∀ e ∈ read_index fs, e.well_formed := by
  unfold read_index
  split
  · simp
  · exact parse_index_wf _

/-! ## Paths of the repository are distinct -/

theorem index_ne_object (h : Str) : index_path ≠ object_path h := by
  simp [index_path, object_path]

theorem main_ne_object (h : Str) : main_path ≠ object_path h := by
  simp [main_path, object_path]

theorem minigit_ne_object (h : Str) : minigit_dir ≠ object_path h := by
  simp [minigit_dir, object_path]

theorem objects_ne_object (h : Str) : objects_dir ≠ object_path h := by
  simp [objects_dir, object_path]

theorem heads_ne_object (h : Str) : heads_dir ≠ object_path h := by
  simp [heads_dir, object_path]

theorem calculate_hash_no_slash (SHA1 : Str → List Nat) (content : Str) :
    '/' ∉ calculate_hash SHA1 content :=
  fun h => absurd (calculate_hash_mem SHA1 content _ h) (by decide)

theorem calculate_hash_no_newline (SHA1 : Str → List Nat) (content : Str) :
    '\n' ∉ calculate_hash SHA1 content :=
  fun h => absurd (calculate_hash_mem SHA1 content _ h) (by decide)

theorem read_file_update_same (fs : FS) (p c : Str) :
    read_file (Function.update fs p (some (Node.file true (bytes c)))) p = some c := by
  simp [read_file, cstr_bytes]

theorem read_file_update_ne (fs : FS) (p q : Str) (v : Option Node) (h : q ≠ p) :
    read_file (Function.update fs p v) q = read_file fs q := by
  simp [read_file, Function.update_noteq h]

theorem read_index_update_ne (fs : FS) (p : Str) (v : Option Node) (h : index_path ≠ p) :
    read_index (Function.update fs p v) = read_index fs := by
  simp [read_index, read_file_update_ne fs p index_path v h]

theorem read_index_update_same (fs : FS) (c : Str) :
    read_index (Function.update fs index_path (some (Node.file true (bytes c)))) =
      parse_index c := by
  simp [read_index, read_file_update_same]

theorem read_object_update_same (fs : FS) (h c : Str) :
    read_object (Function.update fs (object_path h) (some (Node.file true (bytes c)))) h =
      some c := by
  simp [read_object, read_file_update_same]

theorem read_object_update_ne (fs : FS) (p h : Str) (v : Option Node) (hne : object_path h ≠ p) :
    read_object (Function.update fs p v) h = read_object fs h := by
  simp [read_object, read_file_update_ne fs p _ v hne]

theorem get_head_commit_update_ne (fs : FS) (p : Str) (v : Option Node) (h : main_path ≠ p) :
    get_head_commit (Function.update fs p v) = get_head_commit fs := by
  simp [get_head_commit, file_exists, read_file, Function.update_noteq h]

theorem cut_at_of_not_mem (d : Char) (s : Str) (h : d ∉ s) : cut_at d s = s := by
  unfold cut_at
  rw [List.takeWhile_eq_self_iff]
  intro x hx
  have : x ≠ d := fun e => h (e ▸ hx)
  simpa using this

theorem get_head_commit_update_same (fs : FS) (c : Str) (h : '\n' ∉ c) :
    get_head_commit (Function.update fs main_path (some (Node.file true (bytes c)))) =
      some c := by
  simp [get_head_commit, file_exists, read_file, cstr_bytes, cut_at_of_not_mem _ _ h]

/-! ## The repository structure is kept by the writes of the commands -/

theorem Repo.update_index {fs : FS} (hr : Repo fs) (c : List Byte) :
    Repo (Function.update fs index_path (some (Node.file true c))) := by
  refine ⟨?_, ?_, ?_, ?_, ?_, ?_⟩
  · rw [Function.update_noteq (by decide)]; exact hr.root
  · rw [Function.update_noteq (by decide)]; exact hr.objects
  · rw [Function.update_noteq (by decide)]; exact hr.heads
  · right; exact ⟨c, by simp⟩
  · rw [Function.update_noteq (by decide)]; exact hr.main
  · intro h
    rw [Function.update_noteq (index_ne_object h).symm]; exact hr.object h

theorem Repo.update_main {fs : FS} (hr : Repo fs) (c : List Byte) :
    Repo (Function.update fs main_path (some (Node.file true c))) := by
  refine ⟨?_, ?_, ?_, ?_, ?_, ?_⟩
  · rw [Function.update_noteq (by decide)]; exact hr.root
  · rw [Function.update_noteq (by decide)]; exact hr.objects
  · rw [Function.update_noteq (by decide)]; exact hr.heads
  · rw [Function.update_noteq (by decide)]; exact hr.index
  · right; exact ⟨c, by simp⟩
  · intro h
    rw [Function.update_noteq (main_ne_object h).symm]; exact hr.object h

theorem Repo.update_object {fs : FS} (hr : Repo fs) (k : Str) (c : List Byte) :
    Repo (Function.update fs (object_path k) (some (Node.file true c))) := by
  refine ⟨?_, ?_, ?_, ?_, ?_, ?_⟩
  · rw [Function.update_noteq (minigit_ne_object k)]; exact hr.root
  · rw [Function.update_noteq (objects_ne_object k)]; exact hr.objects
  · rw [Function.update_noteq (heads_ne_object k)]; exact hr.heads
  · rw [Function.update_noteq (index_ne_object k)]; exact hr.index
  · rw [Function.update_noteq (main_ne_object k)]; exact hr.main
  · intro h
    by_cases e : object_path h = object_path k
    · right; exact ⟨c, by rw [e]; simp⟩
    · rw [Function.update_noteq e]; exact hr.object h

/-! ## What `cmd_add` and `cmd_commit` do in an initialised repository -/

theorem cmd_add_eq (SHA1 : Str → List Nat) (fs : FS) (p : Str) (x : List Byte)
    (hr : Repo fs) (hx : fs p = some (Node.file true x)) :
    cmd_add SHA1 fs p =
      (Function.update
        (Function.update fs (object_path (calculate_hash SHA1 (cstr x)))
          (some (Node.file true (bytes (cstr x)))))
        index_path
        (some (Node.file true (bytes (index_content
          (stage (read_index fs) p (calculate_hash SHA1 (cstr x))))))),
       "Added '".toList ++ p ++ "' to staging area\n".toList) := by
  have hd : dir_exists fs minigit_dir = true := by simp [dir_exists, hr.root]
  have hf : file_exists fs p = true := by simp [file_exists, hx]
  have hrd : read_file fs p = some (cstr x) := by simp [read_file, hx]
  unfold cmd_add
  simp only [hd, hf, hrd, Bool.not_true, Bool.false_eq_true, if_false]
  rw [hr.write_object _ _ (calculate_hash_no_slash SHA1 _)]
  simp only [write_index]
  rw [(hr.update_object _ _).write_index]
  rw [read_index_update_ne _ _ _ (index_ne_object _)]

/-! ## `cmd_init` -/

theorem create_dir_ok (fs : FS) (p : Str) (h1 : fs p = none) (h2 : parent_ok fs p = true) :
    create_dir fs p = Function.update fs p (some Node.dir) := by
  simp [create_dir, h1, h2]

theorem cmd_init_eq (fs : FS) (hno : ∀ p, inside p → fs p = none) :
    cmd_init fs =
      (Function.update (Function.update (Function.update (Function.update (Function.update
        (Function.update fs minigit_dir (some Node.dir))
          objects_dir (some Node.dir))
          refs_dir (some Node.dir))
          heads_dir (some Node.dir))
          head_path (some (Node.file true (bytes "ref: refs/heads/main\n".toList))))
          index_path (some (Node.file true (bytes []))),
       "Initialized empty repository in .minigit\n".toList) := by
  have h0 : fs minigit_dir = none := hno _ (Or.inl rfl)
  have h1 : fs objects_dir = none := hno _ (by decide)
  have h2 : fs refs_dir = none := hno _ (by decide)
  have h3 : fs heads_dir = none := hno _ (by decide)
  have h4 : fs head_path = none := hno _ (by decide)
  have h5 : fs index_path = none := hno _ (by decide)
  have d0 : dirname minigit_dir = none := by decide
  have d1 : dirname objects_dir = some minigit_dir := by decide
  have d2 : dirname refs_dir = some minigit_dir := by decide
  have d3 : dirname heads_dir = some refs_dir := by decide
  have d4 : dirname head_path = some minigit_dir := by decide
  have d5 : dirname index_path = some minigit_dir := by decide
  have n01 : objects_dir ≠ minigit_dir := by decide
  have n02 : refs_dir ≠ minigit_dir := by decide
  have n03 : heads_dir ≠ minigit_dir := by decide
  have n04 : head_path ≠ minigit_dir := by decide
  have n05 : index_path ≠ minigit_dir := by decide
  have n12 : refs_dir ≠ objects_dir := by decide
  have n13 : heads_dir ≠ objects_dir := by decide
  have n14 : head_path ≠ objects_dir := by decide
  have n15 : index_path ≠ objects_dir := by decide
  have n23 : heads_dir ≠ refs_dir := by decide
  have n24 : head_path ≠ refs_dir := by decide
  have n25 : index_path ≠ refs_dir := by decide
  have n34 : head_path ≠ heads_dir := by decide
  have n35 : index_path ≠ heads_dir := by decide
  have n45 : index_path ≠ head_path := by decide
  have hd : dir_exists fs minigit_dir = false := by simp [dir_exists, h0]
  have e1 : create_dir fs minigit_dir = Function.update fs minigit_dir (some Node.dir) :=
    create_dir_ok _ _ h0 (by simp [parent_ok, d0])
  have e2 : create_dir (Function.update fs minigit_dir (some Node.dir)) objects_dir =
      Function.update (Function.update fs minigit_dir (some Node.dir)) objects_dir
        (some Node.dir) :=
    create_dir_ok _ _ (by rw [Function.update_noteq n01]; exact h1)
      (by simp [parent_ok, d1, dir_exists])
  have e3 : create_dir (Function.update (Function.update fs minigit_dir (some Node.dir))
      objects_dir (some Node.dir)) refs_dir =
      Function.update (Function.update (Function.update fs minigit_dir (some Node.dir))
        objects_dir (some Node.dir)) refs_dir (some Node.dir) :=
    create_dir_ok _ _ (by rw [Function.update_noteq n12, Function.update_noteq n02]; exact h2)
      (by simp [parent_ok, d2, dir_exists, Function.update_noteq n01.symm])
  have e4 : create_dir (Function.update (Function.update (Function.update fs minigit_dir
      (some Node.dir)) objects_dir (some Node.dir)) refs_dir (some Node.dir)) heads_dir =
      Function.update (Function.update (Function.update (Function.update fs minigit_dir
        (some Node.dir)) objects_dir (some Node.dir)) refs_dir (some Node.dir)) heads_dir
        (some Node.dir) :=
    create_dir_ok _ _
      (by rw [Function.update_noteq n23, Function.update_noteq n13,
            Function.update_noteq n03]; exact h3)
      (by simp [parent_ok, d3, dir_exists])
  have e5 : write_file (Function.update (Function.update (Function.update (Function.update fs
      minigit_dir (some Node.dir)) objects_dir (some Node.dir)) refs_dir (some Node.dir))
      heads_dir (some Node.dir)) head_path "ref: refs/heads/main\n".toList =
      (Function.update (Function.update (Function.update (Function.update (Function.update fs
        minigit_dir (some Node.dir)) objects_dir (some Node.dir)) refs_dir (some Node.dir))
        heads_dir (some Node.dir)) head_path
        (some (Node.file true (bytes "ref: refs/heads/main\n".toList))), true) :=
    write_file_ok _ _ _
      (by left; rw [Function.update_noteq n34, Function.update_noteq n24,
            Function.update_noteq n14, Function.update_noteq n04]; exact h4)
      (by simp [parent_ok, d4, dir_exists, Function.update_noteq n03.symm,
            Function.update_noteq n02.symm, Function.update_noteq n01.symm])
  have e6 : write_file (Function.update (Function.update (Function.update (Function.update
      (Function.update fs minigit_dir (some Node.dir)) objects_dir (some Node.dir)) refs_dir
      (some Node.dir)) heads_dir (some Node.dir)) head_path
      (some (Node.file true (bytes "ref: refs/heads/main\n".toList)))) index_path [] =
      (Function.update (Function.update (Function.update (Function.update (Function.update
        (Function.update fs minigit_dir (some Node.dir)) objects_dir (some Node.dir)) refs_dir
        (some Node.dir)) heads_dir (some Node.dir)) head_path
        (some (Node.file true (bytes "ref: refs/heads/main\n".toList)))) index_path
        (some (Node.file true (bytes []))), true) :=
    write_file_ok _ _ _
      (by left; rw [Function.update_noteq n45, Function.update_noteq n35,
            Function.update_noteq n25, Function.update_noteq n15,
            Function.update_noteq n05]; exact h5)
      (by simp [parent_ok, d5, dir_exists, Function.update_noteq n04.symm,
            Function.update_noteq n03.symm, Function.update_noteq n02.symm,
            Function.update_noteq n01.symm])
  simp only [cmd_init, hd, Bool.false_eq_true, if_false, e1, e2, e3, e4, e5, e6]

theorem not_minigit_prefix_object (h : Str) : inside (object_path h) := by
  right
  refine ⟨"objects/".toList ++ h, ?_⟩
  simp [object_path]

theorem cmd_init_repo (fs : FS) (hno : ∀ p, inside p → fs p = none) :
    Repo (cmd_init fs).1 := by
  rw [cmd_init_eq fs hno]
  refine ⟨?_, ?_, ?_, ?_, ?_, ?_⟩
  · simp [Function.update, minigit_dir, index_path, head_path, heads_dir, refs_dir, objects_dir]
  · simp [Function.update, minigit_dir, index_path, head_path, heads_dir, refs_dir, objects_dir]
  · simp [Function.update, minigit_dir, index_path, head_path, heads_dir, refs_dir, objects_dir]
  · right; exact ⟨bytes [], by simp⟩
  · left
    have := hno main_path (by decide)
    simp [Function.update, minigit_dir, index_path, head_path, heads_dir, refs_dir, objects_dir,
      main_path] at this ⊢
    exact this
  · intro h
    left
    have := hno (object_path h) (not_minigit_prefix_object h)
    simp [Function.update, minigit_dir, index_path, head_path, heads_dir, refs_dir, objects_dir,
      object_path] at this ⊢
    exact this

theorem fs_empty_no_minigit : ∀ p, inside p → fs_empty p = none :=
  fun _ _ => rfl

theorem repo_init_empty : Repo (cmd_init fs_empty).1 :=
  cmd_init_repo fs_empty fs_empty_no_minigit

/-- C14: `cmd_init` on a directory with nothing named `.minigit` (or below it)
creates the repository state: the directories `.minigit`, `objects`, `refs`
and `refs/heads`, a `HEAD` naming `refs/heads/main`, an empty index and no
branch reference, so that `get_head_commit` returns none; `cmd_init` where the
directory `.minigit` exists reports that the repository already exists and
returns the file system unchanged. -/
theorem cmd_init_spec (fs : FS) :
    ((∀ p, inside p → fs p = none) →
      dir_exists (cmd_init fs).1 minigit_dir = true ∧
      dir_exists (cmd_init fs).1 objects_dir = true ∧
      dir_exists (cmd_init fs).1 refs_dir = true ∧
      dir_exists (cmd_init fs).1 heads_dir = true ∧
      read_file (cmd_init fs).1 head_path = some "ref: refs/heads/main\n".toList ∧
      read_file (cmd_init fs).1 index_path = some [] ∧
      read_index (cmd_init fs).1 = [] ∧
      (cmd_init fs).1 main_path = none ∧
      get_head_commit (cmd_init fs).1 = none ∧
      (∀ h, read_object (cmd_init fs).1 h = none) ∧
      (cmd_init fs).2 = "Initialized empty repository in .minigit\n".toList) ∧
    (dir_exists fs minigit_dir = true →
      cmd_init fs = (fs, "Repository already exists!\n".toList)) := by
  constructor
  · intro hno
    have hm : fs main_path = none := hno _ (by decide)
    have hmain : (cmd_init fs).1 main_path = none := by
      rw [cmd_init_eq fs hno]
      simp only []
      rw [Function.update_noteq (by decide), Function.update_noteq (by decide),
        Function.update_noteq (by decide), Function.update_noteq (by decide),
        Function.update_noteq (by decide), Function.update_noteq (by decide)]
      exact hm
    have hobj : ∀ h, (cmd_init fs).1 (object_path h) = none := by
      intro h
      rw [cmd_init_eq fs hno]
      simp only []
      rw [Function.update_noteq (index_ne_object h).symm,
        Function.update_noteq (by simp [head_path, object_path]),
        Function.update_noteq (heads_ne_object h).symm,
        Function.update_noteq (by simp [refs_dir, object_path]),
        Function.update_noteq (objects_ne_object h).symm,
        Function.update_noteq (minigit_ne_object h).symm]
      exact hno _ (not_minigit_prefix_object h)
    have hrepo := cmd_init_repo fs hno
    refine ⟨?_, ?_, ?_, ?_, ?_, ?_, ?_, hmain, ?_, ?_, ?_⟩
    · simp [dir_exists, hrepo.root]
    · simp [dir_exists, hrepo.objects]
    · rw [cmd_init_eq fs hno]
      simp only [dir_exists]
      rw [Function.update_noteq (by decide), Function.update_noteq (by decide),
        Function.update_noteq (by decide), Function.update_same]
    · simp [dir_exists, hrepo.heads]
    · rw [cmd_init_eq fs hno]
      simp only []
      rw [read_file_update_ne _ _ _ _ (by decide), read_file_update_same]
    · rw [cmd_init_eq fs hno]
      simp only []
      rw [read_file_update_same]
    · rw [cmd_init_eq fs hno]
      simp only []
      rw [read_index_update_same]
      rfl
    · simp [get_head_commit, file_exists, hmain]
    · intro h
      simp [read_object, read_file, hobj h]
    · rw [cmd_init_eq fs hno]
  · intro hd
    simp [cmd_init, hd]

theorem cmd_init_spec_witness :
    (dir_exists (cmd_init fs_empty).1 minigit_dir = true ∧
      dir_exists (cmd_init fs_empty).1 objects_dir = true ∧
      dir_exists (cmd_init fs_empty).1 refs_dir = true ∧
      dir_exists (cmd_init fs_empty).1 heads_dir = true ∧
      read_file (cmd_init fs_empty).1 head_path = some "ref: refs/heads/main\n".toList ∧
      read_file (cmd_init fs_empty).1 index_path = some [] ∧
      read_index (cmd_init fs_empty).1 = [] ∧
      (cmd_init fs_empty).1 main_path = none ∧
      get_head_commit (cmd_init fs_empty).1 = none ∧
      (∀ h, read_object (cmd_init fs_empty).1 h = none) ∧
      (cmd_init fs_empty).2 = "Initialized empty repository in .minigit\n".toList) ∧
    cmd_init (cmd_init fs_empty).1 =
      ((cmd_init fs_empty).1, "Repository already exists!\n".toList) :=
  ⟨(cmd_init_spec fs_empty).1 fs_empty_no_minigit,
   (cmd_init_spec (cmd_init fs_empty).1).2 (by decide)⟩

/-- C18: writing at most 100 entries, whose paths hold no space or newline and
whose fingerprints hold no newline, with `write_index` in an initialised
repository and reading them back with `read_index` returns the same entries in
the same order, hence the same count; and `read_index` returns no entry when
the index file is missing or empty. -/
theorem read_index_write_index :
    (∀ (fs : FS) (entries : List IndexEntry), Repo fs → entries.length ≤ 100 →
      (∀ e ∈ entries, ' ' ∉ e.filename ∧ '\n' ∉ e.filename ∧ '\n' ∉ e.hash) →
      read_index (write_index fs entries) = entries ∧
      (read_index (write_index fs entries)).length = entries.length) ∧
    (∀ fs : FS, fs index_path = none → read_index fs = []) ∧
    (∀ (fs : FS) (r : Bool), fs index_path = some (Node.file r []) → read_index fs = []) := by
  refine ⟨?_, ?_, ?_⟩
  · intro fs entries hr hlen hwf
    have h : read_index (write_index fs entries) = entries := by
      unfold write_index
      rw [hr.write_index]
      simp only []
      rw [read_index_update_same]
      exact parse_index_content entries hlen hwf
    exact ⟨h, by rw [h]⟩
  · intro fs h
    simp [read_index, read_file, h]
  · intro fs r h
    cases r
    · simp [read_index, read_file, h]
    · simp only [read_index, read_file, h, cstr]
      rfl

theorem read_index_write_index_witness :
    (read_index (write_index (cmd_init fs_empty).1
        [⟨"a.txt".toList, "0a".toList⟩, ⟨"b.txt".toList, "0b".toList⟩]) =
      [⟨"a.txt".toList, "0a".toList⟩, ⟨"b.txt".toList, "0b".toList⟩] ∧
     (read_index (write_index (cmd_init fs_empty).1
        [⟨"a.txt".toList, "0a".toList⟩, ⟨"b.txt".toList, "0b".toList⟩])).length = 2) ∧
    read_index fs_empty = [] ∧
    read_index (cmd_init fs_empty).1 = [] :=
  ⟨read_index_write_index.1 (cmd_init fs_empty).1 _ repo_init_empty (by decide) (by decide),
   read_index_write_index.2.1 fs_empty rfl,
   read_index_write_index.2.2 (cmd_init fs_empty).1 true (by decide)⟩

/-! ## The commit record format -/

/-- The lines of the record of a commit, without their newlines. -/
theorem commit_content_lines (c : Commit) :
    commit_content c =
      (("message: ".toList ++ c.message) :: ("timestamp: ".toList ++ c.timestamp) ::
        ("parent: ".toList ++ c.parent) :: "files:".toList ::
        c.files.map (fun e => "  ".toList ++ e.filename ++ ' ' :: e.hash)).flatMap
        (fun l => l ++ ['\n']) := by
  have hf : ∀ es : List IndexEntry, es.flatMap file_line =
      (es.map (fun e => "  ".toList ++ e.filename ++ ' ' :: e.hash)).flatMap
        (fun l => l ++ ['\n']) := by
    intro es
    induction es with
    | nil => rfl
    | cons e es ih =>
      simp only [List.flatMap_cons, List.map_cons, file_line] at ih ⊢
      rw [ih]
  simp only [commit_content, List.flatMap_cons, hf]
  simp

theorem parse_line_message (st : Commit × Bool) (m : Str) :
    parse_line st ("message: ".toList ++ m) = ({ st.1 with message := m }, st.2) := by
  simp [parse_line]

theorem parse_line_timestamp (st : Commit × Bool) (t : Str) :
    parse_line st ("timestamp: ".toList ++ t) = ({ st.1 with timestamp := t }, st.2) := by
  simp [parse_line]

theorem parse_line_parent (st : Commit × Bool) (p : Str) :
    parse_line st ("parent: ".toList ++ p) = ({ st.1 with parent := p }, st.2) := by
  simp [parse_line]

theorem parse_line_files (st : Commit × Bool) :
    parse_line st "files:".toList = (st.1, true) := by
  simp [parse_line]

theorem parse_line_file (c : Commit) (f h : Str) (hsp : ' ' ∉ f)
    (hlen : c.files.length < MAX_FILES) :
    parse_line (c, true) ("  ".toList ++ f ++ ' ' :: h) =
      ({ c with files := c.files ++ [⟨f, h⟩] }, true) := by
  have hs := split_at_join ' ' f h hsp
  simp [parse_line, hs, hlen]

theorem parse_file_lines (es : List IndexEntry) (c : Commit)
    (hlen : c.files.length + es.length ≤ MAX_FILES) (hsp : ∀ e ∈ es, ' ' ∉ e.filename) :
    (es.map (fun e => "  ".toList ++ e.filename ++ ' ' :: e.hash)).foldl parse_line (c, true) =
      ({ c with files := c.files ++ es }, true) := by
  induction es generalizing c with
  | nil => simp
  | cons e es ih =>
    have h1 : c.files.length < MAX_FILES := by
      simp only [List.length_cons] at hlen; omega
    simp only [List.map_cons, List.foldl_cons]
    rw [parse_line_file c e.filename e.hash (hsp e (List.mem_cons_self e es)) h1, ih]
    · simp
    · simp only [List.length_append, List.length_cons, List.length_nil] at hlen ⊢; omega
    · exact fun x hx => hsp x (List.mem_cons_of_mem e hx)

/-- The round trip of a commit record whose fields fit the line format. -/
theorem parse_commit_content (c : Commit) (hlen : c.files.length ≤ MAX_FILES)
    (hm : '\n' ∉ c.message) (ht : '\n' ∉ c.timestamp) (hp : '\n' ∉ c.parent)
    (hwf : ∀ e ∈ c.files, e.well_formed) :
    parse_commit (commit_content c) =
      { hash := [], message := c.message, timestamp := c.timestamp, parent := c.parent,
        files := c.files } := by
  unfold parse_commit
  rw [commit_content_lines, strtok_lines]
  · simp only [List.foldl_cons]
    rw [parse_line_message, parse_line_timestamp, parse_line_parent, parse_line_files,
      parse_file_lines _ _ (by simpa [Commit.zero] using hlen) (fun e he => (hwf e he).1)]
    simp [Commit.zero]
  · intro l hl
    simp only [List.mem_cons, List.mem_map] at hl
    rcases hl with rfl | rfl | rfl | rfl | ⟨e, he, rfl⟩
    · refine ⟨by simp, ?_⟩
      simpa using hm
    · refine ⟨by simp, ?_⟩
      simpa using ht
    · refine ⟨by simp, ?_⟩
      simpa using hp
    · decide
    · obtain ⟨_, h2, h3⟩ := hwf e he
      refine ⟨by simp, ?_⟩
      simp [h2, h3]

theorem parse_line_message_no_newline (st : Commit × Bool) (line : Str)
    (hst : '\n' ∉ st.1.message) (hl : '\n' ∉ line) : '\n' ∉ (parse_line st line).1.message := by
  unfold parse_line
  split
  · exact fun h => hl (List.mem_of_mem_drop h)
  · split
    · exact hst
    · split
      · exact hst
      · split
        · exact hst
        · split
          · split
            · split
              · exact hst
              · exact hst
            · exact hst
          · exact hst

theorem foldl_parse_line_message_no_newline (lines : List Str) (st : Commit × Bool)
    (hst : '\n' ∉ st.1.message) (hl : ∀ l ∈ lines, '\n' ∉ l) :
    '\n' ∉ (lines.foldl parse_line st).1.message := by
  induction lines generalizing st with
  | nil => exact hst
  | cons l ls ih =>
    simp only [List.foldl_cons]
    exact ih _ (parse_line_message_no_newline st l hst (hl l (List.mem_cons_self l ls)))
      (fun x hx => hl x (List.mem_cons_of_mem l hx))

theorem parse_commit_message_no_newline (content : Str) :
    '\n' ∉ (parse_commit content).message :=
  foldl_parse_line_message_no_newline _ _ (by simp [Commit.zero]) (strtok_no_delim '\n' content)

/-- C16: for every commit whose message contains a newline character, the
message `parse_commit` returns from the record serialized for it differs from
the original message. -/
theorem parse_commit_newline_message (c : Commit) (h : '\n' ∈ c.message) :
    (parse_commit (commit_content c)).message ≠ c.message := by
  intro e
  exact parse_commit_message_no_newline (commit_content c) (e ▸ h)

theorem parse_commit_newline_message_witness :
    '\n' ∈ (⟨[], "fix\nmore".toList, "2024-01-01 00:00:00".toList, [], []⟩ : Commit).message ∧
    (parse_commit (commit_content
      ⟨[], "fix\nmore".toList, "2024-01-01 00:00:00".toList, [], []⟩)).message ≠
      "fix\nmore".toList :=
  ⟨by decide, parse_commit_newline_message
    ⟨[], "fix\nmore".toList, "2024-01-01 00:00:00".toList, [], []⟩ (by decide)⟩

/-- C17: for every commit with at most 100 file entries whose message,
timestamp, parent and fingerprints hold no newline and whose paths hold neither
a space nor a newline, `parse_commit` of the serialized record returns exactly
that commit: the same message, timestamp, parent, file count and entries in
order (the field `hash`, which is not part of the record, is zeroed). -/
theorem parse_commit_restricted_roundtrip (c : Commit) (hlen : c.files.length ≤ 100)
    (hm : '\n' ∉ c.message) (ht : '\n' ∉ c.timestamp) (hp : '\n' ∉ c.parent)
    (hfiles : ∀ e ∈ c.files, ' ' ∉ e.filename ∧ '\n' ∉ e.filename ∧ '\n' ∉ e.hash) :
    parse_commit (commit_content c) = { c with hash := [] } ∧
    (parse_commit (commit_content c)).file_count = c.file_count := by
  have h := parse_commit_content c hlen hm ht hp hfiles
  exact ⟨h, by rw [h]; rfl⟩

theorem parse_commit_restricted_roundtrip_witness :
    parse_commit (commit_content
      ⟨[], "first".toList, "2024-01-01 00:00:00".toList, "00ff".toList,
        [⟨"a.txt".toList, "0a".toList⟩, ⟨"b.txt".toList, "0b".toList⟩]⟩) =
      ⟨[], "first".toList, "2024-01-01 00:00:00".toList, "00ff".toList,
        [⟨"a.txt".toList, "0a".toList⟩, ⟨"b.txt".toList, "0b".toList⟩]⟩ ∧
    (parse_commit (commit_content
      ⟨[], "first".toList, "2024-01-01 00:00:00".toList, "00ff".toList,
        [⟨"a.txt".toList, "0a".toList⟩, ⟨"b.txt".toList, "0b".toList⟩]⟩)).file_count = 2 :=
  parse_commit_restricted_roundtrip
    ⟨[], "first".toList, "2024-01-01 00:00:00".toList, "00ff".toList,
      [⟨"a.txt".toList, "0a".toList⟩, ⟨"b.txt".toList, "0b".toList⟩]⟩
    (by decide) (by decide) (by decide) (by decide) (by decide)

/-! ## Staging: the upsert of `cmd_add` -/

theorem replace_hash_none (p h : Str) (es : List IndexEntry) (hno : ∀ e ∈ es, e.filename ≠ p) :
    replace_hash p h es = none := by
  induction es with
  | nil => rfl
  | cons e es ih =>
    simp only [replace_hash, if_neg (hno e (List.mem_cons_self e es))]
    rw [ih (fun x hx => hno x (List.mem_cons_of_mem e hx))]
    rfl

theorem replace_hash_first (p h : Str) (pre post : List IndexEntry) (e : IndexEntry)
    (hpre : ∀ y ∈ pre, y.filename ≠ p) (he : e.filename = p) :
    replace_hash p h (pre ++ e :: post) = some (pre ++ ⟨p, h⟩ :: post) := by
  induction pre with
  | nil =>
    simp only [List.nil_append, replace_hash, if_pos he]
    rw [← he]
  | cons y ys ih =>
    simp only [List.cons_append, replace_hash, if_neg (hpre y (List.mem_cons_self y ys)),
      List.append_eq]
    rw [ih (fun x hx => hpre x (List.mem_cons_of_mem y hx))]
    rfl

theorem replace_hash_cases (p h : Str) (es : List IndexEntry) :
    (replace_hash p h es = none ∧ ∀ e ∈ es, e.filename ≠ p) ∨
    ∃ pre e post, es = pre ++ e :: post ∧ (∀ y ∈ pre, y.filename ≠ p) ∧ e.filename = p ∧
      replace_hash p h es = some (pre ++ ⟨p, h⟩ :: post) := by
  induction es with
  | nil => left; exact ⟨rfl, by simp⟩
  | cons e es ih =>
    by_cases he : e.filename = p
    · right
      exact ⟨[], e, es, rfl, by simp, he, replace_hash_first p h [] es e (by simp) he⟩
    · rcases ih with ⟨_, h2⟩ | ⟨pre, e', post, h1, h2, h3, _⟩
      · left
        have hall : ∀ x ∈ e :: es, x.filename ≠ p := by
          intro x hx
          rcases List.mem_cons.mp hx with rfl | hx
          · exact he
          · exact h2 x hx
        exact ⟨replace_hash_none p h _ hall, hall⟩
      · right
        refine ⟨e :: pre, e', post, by rw [h1]; rfl, ?_, h3, ?_⟩
        · intro x hx
          rcases List.mem_cons.mp hx with rfl | hx
          · exact he
          · exact h2 x hx
        · have hall : ∀ x ∈ e :: pre, x.filename ≠ p := by
            intro x hx
            rcases List.mem_cons.mp hx with rfl | hx
            · exact he
            · exact h2 x hx
          rw [h1]
          exact replace_hash_first p h (e :: pre) post e' hall h3

theorem stage_absent (es : List IndexEntry) (p h : Str) (hno : ∀ e ∈ es, e.filename ≠ p) :
    stage es p h = if es.length < MAX_FILES then es ++ [⟨p, h⟩] else es := by
  simp [stage, replace_hash_none p h es hno]

theorem stage_present (pre post : List IndexEntry) (e : IndexEntry) (p h : Str)
    (hpre : ∀ y ∈ pre, y.filename ≠ p) (he : e.filename = p) :
    stage (pre ++ e :: post) p h = pre ++ ⟨p, h⟩ :: post := by
  simp [stage, replace_hash_first p h pre post e hpre he]

theorem stage_length (es : List IndexEntry) (p h : Str) (hlen : es.length ≤ MAX_FILES) :
    (stage es p h).length ≤ MAX_FILES := by
  rcases replace_hash_cases p h es with ⟨_, h2⟩ | ⟨pre, e, post, h1, h2, h3, _⟩
  · rw [stage_absent es p h h2]
    split
    · simp only [List.length_append, List.length_cons, List.length_nil]; omega
    · exact hlen
  · rw [h1, stage_present pre post e p h h2 h3]
    rw [h1] at hlen
    simpa using hlen

/-- The staged entries are well formed when the old ones are and either the
path is well formed or no new entry is appended. -/
theorem stage_wf (es : List IndexEntry) (p h : Str) (hes : ∀ e ∈ es, e.well_formed)
    (hh : '\n' ∉ h)
    (hp : (' ' ∉ p ∧ '\n' ∉ p) ∨ (∃ e ∈ es, e.filename = p) ∨ ¬ es.length < MAX_FILES) :
    ∀ e ∈ stage es p h, e.well_formed := by
  rcases replace_hash_cases p h es with ⟨_, h2⟩ | ⟨pre, e, post, h1, h2, h3, _⟩
  · rw [stage_absent es p h h2]
    split
    · rename_i hlt
      intro e he
      rcases List.mem_append.mp he with he | he
      · exact hes e he
      · simp only [List.mem_singleton] at he
        subst he
        rcases hp with hp | ⟨e, he, hep⟩ | hp
        · exact ⟨hp.1, hp.2, hh⟩
        · exact absurd hep (h2 e he)
        · exact absurd hlt hp
    · exact hes
  · rw [h1, stage_present pre post e p h h2 h3]
    have hewf : e.well_formed := hes e (by rw [h1]; simp)
    intro y hy
    rcases List.mem_append.mp hy with hy | hy
    · exact hes y (by rw [h1]; simp [hy])
    · rcases List.mem_cons.mp hy with hy | hy
      · subst hy
        exact ⟨h3 ▸ hewf.1, h3 ▸ hewf.2.1, hh⟩
      · exact hes y (by rw [h1]; simp [hy])

/-- The index after `cmd_add` of a readable file in an initialised repository. -/
theorem read_index_cmd_add (SHA1 : Str → List Nat) (fs : FS) (p : Str) (x : List Byte)
    (hr : Repo fs) (hx : fs p = some (Node.file true x)) :
    read_index (cmd_add SHA1 fs p).1 =
      parse_index (index_content (stage (read_index fs) p (calculate_hash SHA1 (cstr x)))) := by
  rw [cmd_add_eq SHA1 fs p x hr hx]
  simp only []
  rw [read_index_update_same]

theorem read_index_cmd_add_wf (SHA1 : Str → List Nat) (fs : FS) (p : Str) (x : List Byte)
    (hr : Repo fs) (hx : fs p = some (Node.file true x))
    (hp : (' ' ∉ p ∧ '\n' ∉ p) ∨ (∃ e ∈ read_index fs, e.filename = p) ∨
      ¬ (read_index fs).length < MAX_FILES) :
    read_index (cmd_add SHA1 fs p).1 =
      stage (read_index fs) p (calculate_hash SHA1 (cstr x)) := by
  rw [read_index_cmd_add SHA1 fs p x hr hx]
  exact parse_index_content _ (stage_length _ _ _ (read_index_length fs))
    (stage_wf _ _ _ (read_index_wf fs) (calculate_hash_no_newline SHA1 _) hp)

theorem cmd_add_repo (SHA1 : Str → List Nat) (fs : FS) (p : Str) (hr : Repo fs) :
    Repo (cmd_add SHA1 fs p).1 := by
  unfold cmd_add
  split
  · exact hr
  · split
    · exact hr
    · split
      · exact hr
      · simp only []
        rw [hr.write_object _ _ (calculate_hash_no_slash SHA1 _)]
        simp only [write_index]
        rw [(hr.update_object _ _).write_index]
        exact (hr.update_object _ _).update_index _

theorem Repo.update_outside {fs : FS} (hr : Repo fs) (p : Str) (v : Option Node)
    (hp : ¬ inside p) : Repo (Function.update fs p v) := by
  have hne : ∀ q, inside q → q ≠ p := fun q hq e => hp (e ▸ hq)
  refine ⟨?_, ?_, ?_, ?_, ?_, ?_⟩
  · rw [Function.update_noteq (hne _ (by decide))]; exact hr.root
  · rw [Function.update_noteq (hne _ (by decide))]; exact hr.objects
  · rw [Function.update_noteq (hne _ (by decide))]; exact hr.heads
  · rw [Function.update_noteq (hne _ (by decide))]; exact hr.index
  · rw [Function.update_noteq (hne _ (by decide))]; exact hr.main
  · intro h
    rw [Function.update_noteq (hne _ (not_minigit_prefix_object h))]; exact hr.object h

theorem Repo.user_save {fs : FS} (hr : Repo fs) (p : Str) (x : List Byte)
    (hp : ¬ inside p) : Repo (user_save fs p x) :=
  hr.update_outside p _ hp

theorem log_walk_length (fs : FS) (n : Nat) (start : Option Str) :
    (log_walk fs n start).length ≤ n := by
  induction n generalizing start with
  | zero => simp [log_walk]
  | succ n ih =>
    cases start with
    | none => simp [log_walk]
    | some h =>
      simp only [log_walk]
      split
      · split
        · simp
        · simp only [List.length_cons]
          exact Nat.succ_le_succ (ih _)
      · simp

theorem log_walk_step (fs : FS) (n : Nat) (h content : Str) (hne : h ≠ [])
    (hread : read_object fs h = some content) :
    log_walk fs (n + 1) (some h) =
      (h, parse_commit content) ::
        log_walk fs n (if (parse_commit content).parent.length > 0
          then some (parse_commit content).parent else none) := by
  have hl : h.length > 0 := List.length_pos.mpr hne
  simp [log_walk, hl, hread]

theorem cmd_log_output (fs : FS) (tip : Str) (hd : dir_exists fs minigit_dir = true)
    (ht : get_head_commit fs = some tip) :
    cmd_log fs = (fs, log_header ++
      (log_walk fs LOG_LIMIT (some tip)).flatMap (fun hc => log_entry hc.1 hc.2)) := by
  simp [cmd_log, hd, ht]

theorem cmd_log_fs (fs : FS) : (cmd_log fs).1 = fs := by
  unfold cmd_log
  split
  · rfl
  · split <;> rfl

/-- C11: the history walk of `cmd_log` terminates on every object store and
every branch reference: it visits at most 10 commits, the file system is
returned unchanged, and the output is the header followed by the entries of
the visited commits.  On a store whose parent links form a cycle (the parent of
`A` is `B` and the parent of `B` is `A`) the walk started at `A` visits
`A, B, A, B, ...` ten times and stops. -/
theorem cmd_log_terminates (fs : FS) :
    (∀ start, (log_walk fs LOG_LIMIT start).length ≤ 10) ∧
    (cmd_log fs).1 = fs ∧
    (∀ tip, dir_exists fs minigit_dir = true → get_head_commit fs = some tip →
      (cmd_log fs).2 = log_header ++
        (log_walk fs LOG_LIMIT (some tip)).flatMap (fun hc => log_entry hc.1 hc.2)) ∧
    (∀ A B cA cB, A ≠ [] → B ≠ [] → read_object fs A = some cA → read_object fs B = some cB →
      (parse_commit cA).parent = B → (parse_commit cB).parent = A →
      (log_walk fs LOG_LIMIT (some A)).map Prod.fst = [A, B, A, B, A, B, A, B, A, B]) := by
  refine ⟨fun start => log_walk_length fs LOG_LIMIT start, cmd_log_fs fs, ?_, ?_⟩
  · intro tip hd ht
    rw [cmd_log_output fs tip hd ht]
  · intro A B cA cB hA hB hrA hrB hpA hpB
    have lA : A.length > 0 := List.length_pos.mpr hA
    have lB : B.length > 0 := List.length_pos.mpr hB
    have sA : ∀ n, log_walk fs (n + 1) (some A) = (A, parse_commit cA) :: log_walk fs n (some B) := by
      intro n
      rw [log_walk_step fs n A cA hA hrA, hpA, if_pos lB]
    have sB : ∀ n, log_walk fs (n + 1) (some B) = (B, parse_commit cB) :: log_walk fs n (some A) := by
      intro n
      rw [log_walk_step fs n B cB hB hrB, hpB, if_pos lA]
    show (log_walk fs 10 (some A)).map Prod.fst = _
    rw [sA, sB, sA, sB, sA, sB, sA, sB, sA, sB]
    simp [log_walk]

theorem cmd_log_terminates_witness :
    (∀ start, (log_walk fs_cycle LOG_LIMIT start).length ≤ 10) ∧
    (cmd_log fs_cycle).1 = fs_cycle ∧
    (cmd_log fs_cycle).2 = log_header ++
        (log_walk fs_cycle LOG_LIMIT (some "aa".toList)).flatMap
          (fun hc => log_entry hc.1 hc.2) ∧
    (log_walk fs_cycle LOG_LIMIT (some "aa".toList)).map Prod.fst =
      ["aa".toList, "bb".toList, "aa".toList, "bb".toList, "aa".toList, "bb".toList,
       "aa".toList, "bb".toList, "aa".toList, "bb".toList] :=
  ⟨(cmd_log_terminates fs_cycle).1, (cmd_log_terminates fs_cycle).2.1,
   (cmd_log_terminates fs_cycle).2.2.1 "aa".toList (by decide) (by decide),
   (cmd_log_terminates fs_cycle).2.2.2 "aa".toList "bb".toList
     "message: a\nparent: bb\nfiles:\n".toList "message: b\nparent: aa\nfiles:\n".toList
     (by decide) (by decide) (by decide) (by decide) (by decide) (by decide)⟩

theorem log_walk_ends_at_missing (fs : FS) (n : Nat) (start : Option Str) (h : Str)
    (c : Commit) (hmem : (h, c) ∈ log_walk fs n start)
    (hmiss : read_object fs c.parent = none) :
    ∃ pre, log_walk fs n start = pre ++ [(h, c)] := by
  induction n generalizing start with
  | zero => simp [log_walk] at hmem
  | succ n ih =>
    cases start with
    | none => simp [log_walk] at hmem
    | some k =>
      by_cases hk : k = []
      · simp [log_walk, hk] at hmem
      · cases hread : read_object fs k with
        | none =>
          have hl : k.length > 0 := List.length_pos.mpr hk
          simp [log_walk, hl, hread] at hmem
        | some content =>
          rw [log_walk_step fs n k content hk hread] at hmem ⊢
          rcases List.mem_cons.mp hmem with e | hrest
          · have e1 : h = k := congrArg Prod.fst e
            have e2 : c = parse_commit content := congrArg Prod.snd e
            refine ⟨[], ?_⟩
            rw [← e2, ← e1]
            have hnil : log_walk fs n (if c.parent.length > 0 then some c.parent else none)
                = [] := by
              cases n with
              | zero => rfl
              | succ m =>
                split
                · simp [log_walk, hmiss]
                · rfl
            rw [hnil]
            rfl
          · obtain ⟨pre, hpre⟩ := ih _ hrest
            exact ⟨(k, parse_commit content) :: pre, by rw [hpre]; rfl⟩

/-- C12 (as stated, refuted): the tip commit `aa` of `fs_dangling` names the
parent `bb`, which is not in the store; `cmd_log` prints the header and the
entry of `aa` and nothing else: no warning about the missing parent follows. -/
theorem cmd_log_missing_parent_counterexample :
    get_head_commit fs_dangling = some "aa".toList ∧
    (log_walk fs_dangling LOG_LIMIT (some "aa".toList)).map (fun hc => (hc.1, hc.2.parent)) =
      [("aa".toList, "bb".toList)] ∧
    read_object fs_dangling "bb".toList = none ∧
    (cmd_log fs_dangling).2 =
      ("Commit History:\n========================================\n" ++
       "Commit: aa\nDate: t\nMessage: m\nFiles:\n  - a.txt\n" ++
       "----------------------------------------\n").toList ∧
    ¬ ∃ warning : Str, warning ≠ [] ∧
      (cmd_log fs_dangling).2 = log_header ++
        (log_walk fs_dangling LOG_LIMIT (some "aa".toList)).flatMap
          (fun hc => log_entry hc.1 hc.2) ++ warning := by
  refine ⟨by decide, by decide, by decide, by decide, ?_⟩
  rintro ⟨w, hw, h⟩
  rw [cmd_log_output fs_dangling "aa".toList (by decide) (by decide)] at h
  exact hw (List.self_eq_append_right.mp h)

/-- C12 (amended): when the history walk of `cmd_log` reaches a commit whose
parent fingerprint names no object in the store, the walk ends there without
failing: that commit is the last one visited, the commits before it are all
emitted, and the output is the header followed by the entries of the visited
commits only; no warning is printed. -/
theorem cmd_log_missing_parent (fs : FS) (tip h : Str) (c : Commit)
    (hd : dir_exists fs minigit_dir = true) (ht : get_head_commit fs = some tip)
    (hmem : (h, c) ∈ log_walk fs LOG_LIMIT (some tip))
    (hmiss : read_object fs c.parent = none) :
    ∃ before, log_walk fs LOG_LIMIT (some tip) = before ++ [(h, c)] ∧
      cmd_log fs = (fs, log_header ++
        before.flatMap (fun hc => log_entry hc.1 hc.2) ++ log_entry h c) := by
  obtain ⟨before, hb⟩ := log_walk_ends_at_missing fs LOG_LIMIT (some tip) h c hmem hmiss
  refine ⟨before, hb, ?_⟩
  rw [cmd_log_output fs tip hd ht, hb]
  simp [List.flatMap_append]

theorem cmd_log_missing_parent_witness :
    ∃ before, log_walk fs_dangling LOG_LIMIT (some "aa".toList) =
        before ++ [("aa".toList,
          parse_commit "message: m\ntimestamp: t\nparent: bb\nfiles:\n  a.txt 0a\n".toList)] ∧
      cmd_log fs_dangling = (fs_dangling, log_header ++
        before.flatMap (fun hc => log_entry hc.1 hc.2) ++
        log_entry "aa".toList
          (parse_commit "message: m\ntimestamp: t\nparent: bb\nfiles:\n  a.txt 0a\n".toList)) :=
  cmd_log_missing_parent fs_dangling "aa".toList "aa".toList
    (parse_commit "message: m\ntimestamp: t\nparent: bb\nfiles:\n  a.txt 0a\n".toList)
    (by decide) (by decide) (by decide) (by decide)

/-! ## Writes change one path only -/

/-- C10: if `p` is not an existing regular file, or its content cannot be
read, `cmd_add` reports the failure ("Not a repository" outside a repository,
otherwise "File ... not found" or "Could not read file ...") and returns the
file system unchanged: the index is as before and no object is written. -/
theorem cmd_add_failure (SHA1 : Str → List Nat) (fs : FS) (p : Str)
    (h : file_exists fs p = false ∨ read_file fs p = none) :
    (cmd_add SHA1 fs p).1 = fs ∧
    read_index (cmd_add SHA1 fs p).1 = read_index fs ∧
    (∀ k, (cmd_add SHA1 fs p).1 (object_path k) = fs (object_path k)) ∧
    (dir_exists fs minigit_dir = false → (cmd_add SHA1 fs p).2 = msg_not_a_repository) ∧
    (dir_exists fs minigit_dir = true → file_exists fs p = false →
      (cmd_add SHA1 fs p).2 = "File '".toList ++ p ++ "' not found\n".toList) ∧
    (dir_exists fs minigit_dir = true → file_exists fs p = true →
      (cmd_add SHA1 fs p).2 = "Could not read file '".toList ++ p ++ "'\n".toList) := by
  have hfs : (cmd_add SHA1 fs p).1 = fs := by
    unfold cmd_add
    split
    · rfl
    · split
      · rfl
      · rename_i hf
        rcases h with h | h
        · simp [h] at hf
        · simp [h]
  refine ⟨hfs, by rw [hfs], fun k => by rw [hfs], ?_, ?_, ?_⟩
  · intro hd
    simp [cmd_add, hd]
  · intro hd hf
    simp [cmd_add, hd, hf]
  · intro hd hf
    have hr : read_file fs p = none := by
      rcases h with h | h
      · rw [h] at hf; exact absurd hf (by decide)
      · exact h
    simp [cmd_add, hd, hf, hr]

theorem cmd_add_failure_witness :
    ((cmd_add toy_sha fs_locked "secret.txt".toList).1 = fs_locked ∧
     (cmd_add toy_sha fs_locked "secret.txt".toList).2 =
       "Could not read file '".toList ++ "secret.txt".toList ++ "'\n".toList) ∧
    ((cmd_add toy_sha fs_locked "none.txt".toList).1 = fs_locked ∧
     (cmd_add toy_sha fs_locked "none.txt".toList).2 =
       "File '".toList ++ "none.txt".toList ++ "' not found\n".toList) :=
  ⟨⟨(cmd_add_failure toy_sha fs_locked "secret.txt".toList (Or.inr (by decide))).1,
    (cmd_add_failure toy_sha fs_locked "secret.txt".toList (Or.inr (by decide))).2.2.2.2.2
      (by decide) (by decide)⟩,
   ⟨(cmd_add_failure toy_sha fs_locked "none.txt".toList (Or.inl (by decide))).1,
    (cmd_add_failure toy_sha fs_locked "none.txt".toList (Or.inl (by decide))).2.2.2.2.1
      (by decide) (by decide)⟩⟩

/-! ## The parent line of a record is read back whatever the message -/

theorem strtok_aux_append (d : Char) (a b cur : Str) :
    strtok_aux d (a ++ d :: b) cur = strtok_aux d (a ++ [d]) cur ++ strtok_aux d b [] := by
  induction a generalizing cur with
  | nil =>
    simp only [List.nil_append, strtok_aux, if_true]
    split <;> simp
  | cons c cs ih =>
    simp only [List.cons_append, strtok_aux, List.append_eq]
    split
    · split
      · exact ih []
      · rw [ih []]; rfl
    · exact ih (c :: cur)

theorem strtok_append (d : Char) (a b : Str) :
    strtok d (a ++ d :: b) = strtok d (a ++ [d]) ++ strtok d b :=
  strtok_aux_append d a b []

theorem parse_line_parent_of_space (st : Commit × Bool) (line : Str) :
    (parse_line st (' ' :: line)).1.parent = st.1.parent := by
  unfold parse_line
  simp only [String.toList, List.isPrefixOf]
  simp
  split
  · split
    · split <;> rfl
    · rfl
  · rfl

theorem foldl_file_lines_parent (es : List IndexEntry) (st : Commit × Bool) :
    ((es.map (fun e => "  ".toList ++ e.filename ++ ' ' :: e.hash)).foldl parse_line st).1.parent
      = st.1.parent := by
  induction es generalizing st with
  | nil => rfl
  | cons e es ih =>
    simp only [List.map_cons, List.foldl_cons]
    rw [ih]
    exact parse_line_parent_of_space st _

theorem commit_content_split (c : Commit) :
    commit_content c =
      ("message: ".toList ++ c.message ++ '\n' :: ("timestamp: ".toList ++ c.timestamp)) ++
        '\n' :: (("parent: ".toList ++ c.parent) :: "files:".toList ::
          c.files.map (fun e => "  ".toList ++ e.filename ++ ' ' :: e.hash)).flatMap
          (fun l => l ++ ['\n']) := by
  rw [commit_content_lines]
  simp [List.flatMap_cons]

/-- The parent read back from a record is the parent written, for every
message and timestamp. -/
theorem parse_commit_parent (c : Commit) (hp : '\n' ∉ c.parent)
    (hwf : ∀ e ∈ c.files, e.well_formed) :
    (parse_commit (commit_content c)).parent = c.parent := by
  unfold parse_commit
  rw [commit_content_split, strtok_append, List.foldl_append, strtok_lines]
  · simp only [List.foldl_cons]
    rw [foldl_file_lines_parent, parse_line_files, parse_line_parent]
  · intro l hl
    simp only [List.mem_cons, List.mem_map] at hl
    rcases hl with rfl | rfl | ⟨e, he, rfl⟩
    · refine ⟨by simp, ?_⟩
      simpa using hp
    · decide
    · obtain ⟨_, h2, h3⟩ := hwf e he
      refine ⟨by simp, ?_⟩
      simp [h2, h3]

theorem cut_at_no_delim (d : Char) (s : Str) : d ∉ cut_at d s := by
  unfold cut_at
  intro h
  have := List.mem_takeWhile_imp h
  simp at this

theorem get_head_commit_no_newline (fs : FS) (h : Str) (hh : get_head_commit fs = some h) :
    '\n' ∉ h := by
  unfold get_head_commit at hh
  split at hh
  · split at hh
    · simp only [Option.some.injEq] at hh
      rw [← hh]
      exact cut_at_no_delim _ _
    · simp at hh
  · simp at hh

theorem head_getD_no_newline (fs : FS) : '\n' ∉ (get_head_commit fs).getD [] := by
  cases h : get_head_commit fs with
  | none => simp
  | some k => exact get_head_commit_no_newline fs k h

/-! ## Raw contents and C strings -/

theorem cmd_add_unreadable (SHA1 : Str → List Nat) (fs : FS) (p : Str)
    (h : read_file fs p = none) : (cmd_add SHA1 fs p).1 = fs := by
  unfold cmd_add
  split
  · rfl
  · split
    · rfl
    · rw [h]

theorem read_index_user_save (fs : FS) (p : Str) (x : List Byte) (hp : ¬ inside p) :
    read_index (user_save fs p x) = read_index fs :=
  read_index_update_ne fs p _ (fun e => hp (e ▸ (by decide)))

theorem user_save_same (fs : FS) (p : Str) (x : List Byte) :
    user_save fs p x p = some (Node.file true x) := by
  simp [user_save]

theorem commit_content_tail (c : Commit) :
    commit_content c =
      "message: ".toList ++ (c.message ++ '\n' :: (tail_lines c).flatMap (fun l => l ++ ['\n'])) := by
  rw [commit_content_lines]
  simp [tail_lines, List.flatMap_cons]

theorem tail_lines_ok (c : Commit) (hc : c.well_formed) :
    ∀ l ∈ tail_lines c, l ≠ [] ∧ '\n' ∉ l := by
  obtain ⟨ht, hp, hf⟩ := hc
  intro l hl
  simp only [tail_lines, List.mem_cons, List.mem_map] at hl
  rcases hl with rfl | rfl | rfl | ⟨e, he, rfl⟩
  · refine ⟨by simp, ?_⟩
    simpa using ht
  · refine ⟨by simp, ?_⟩
    simpa using hp
  · decide
  · obtain ⟨_, h2, h3⟩ := hf e he
    refine ⟨by simp, ?_⟩
    simp [h2, h3]

theorem strtok_tail (c : Commit) (hc : c.well_formed) :
    strtok '\n' ((tail_lines c).flatMap (fun l => l ++ ['\n'])) = tail_lines c :=
  strtok_lines '\n' _ (tail_lines_ok c hc)

theorem files_not_mem_file_lines (es : List IndexEntry) :
    "files:".toList ∉ es.map (fun e => "  ".toList ++ e.filename ++ ' ' :: e.hash) := by
  intro h
  obtain ⟨e, _, he⟩ := List.mem_map.mp h
  simp at he

theorem files_mem_drop (xs : List Str) (hxs : xs ≠ []) (a b : Str) (rest : List Str) :
    "files:".toList ∈ (xs ++ a :: b :: "files:".toList :: rest).drop 3 := by
  match xs, hxs with
  | [_], _ => simp
  | [_, _], _ => simp
  | [_, _, _], _ => simp
  | _ :: _ :: _ :: _ :: ys, _ => simp

/-- Two records that agree have the same lines after the message: one
direction of the comparison, with the first message the shorter one. -/
theorem tail_eq_of_append (c1 c2 : Commit) (h1 : c1.well_formed) (h2 : c2.well_formed)
    (d : Str)
    (h : '\n' :: (tail_lines c1).flatMap (fun l => l ++ ['\n']) =
      d ++ '\n' :: (tail_lines c2).flatMap (fun l => l ++ ['\n'])) :
    tail_lines c1 = tail_lines c2 := by
  cases d with
  | nil =>
    simp only [List.nil_append, List.cons.injEq, true_and] at h
    have := congrArg (strtok '\n') h
    rwa [strtok_tail c1 h1, strtok_tail c2 h2] at this
  | cons x d' =>
    simp only [List.cons_append, List.cons.injEq] at h
    obtain ⟨_, h⟩ := h
    have hs := congrArg (strtok '\n') h
    rw [strtok_tail c1 h1, strtok_append, strtok_tail c2 h2] at hs
    by_cases hxs : strtok '\n' (d' ++ ['\n']) = []
    · rw [hxs] at hs
      exact hs
    · exfalso
      have hmem := files_mem_drop _ hxs ("timestamp: ".toList ++ c2.timestamp)
        ("parent: ".toList ++ c2.parent)
        (c2.files.map (fun e => "  ".toList ++ e.filename ++ ' ' :: e.hash))
      have hs' : tail_lines c1 = strtok '\n' (d' ++ ['\n']) ++
          ("timestamp: ".toList ++ c2.timestamp) :: ("parent: ".toList ++ c2.parent) ::
            "files:".toList ::
            c2.files.map (fun e => "  ".toList ++ e.filename ++ ' ' :: e.hash) := hs
      rw [← hs'] at hmem
      exact files_not_mem_file_lines c1.files hmem

theorem file_line_inj (e1 e2 : IndexEntry) (h1 : ' ' ∉ e1.filename) (h2 : ' ' ∉ e2.filename)
    (h : "  ".toList ++ e1.filename ++ ' ' :: e1.hash =
      "  ".toList ++ e2.filename ++ ' ' :: e2.hash) : e1 = e2 := by
  have h' : e1.filename ++ ' ' :: e1.hash = e2.filename ++ ' ' :: e2.hash := by
    simpa using h
  have s1 := split_at_join ' ' e1.filename e1.hash h1
  have s2 := split_at_join ' ' e2.filename e2.hash h2
  rw [h', s2] at s1
  simp only [Option.some.injEq, Prod.mk.injEq] at s1
  cases e1
  cases e2
  simp only [IndexEntry.mk.injEq]
  exact ⟨s1.1.symm, s1.2.symm⟩

theorem file_lines_inj (es1 es2 : List IndexEntry) (h1 : ∀ e ∈ es1, ' ' ∉ e.filename)
    (h2 : ∀ e ∈ es2, ' ' ∉ e.filename)
    (h : es1.map (fun e => "  ".toList ++ e.filename ++ ' ' :: e.hash) =
      es2.map (fun e => "  ".toList ++ e.filename ++ ' ' :: e.hash)) : es1 = es2 := by
  induction es1 generalizing es2 with
  | nil =>
    cases es2 with
    | nil => rfl
    | cons _ _ => simp at h
  | cons a as ih =>
    cases es2 with
    | nil => simp at h
    | cons b bs =>
      simp only [List.map_cons, List.cons.injEq] at h
      have hab := file_line_inj a b (h1 a (List.mem_cons_self a as))
        (h2 b (List.mem_cons_self b bs)) h.1
      rw [hab, ih bs (fun e he => h1 e (List.mem_cons_of_mem a he))
        (fun e he => h2 e (List.mem_cons_of_mem b he)) h.2]

theorem commit_content_inj (c1 c2 : Commit) (h1 : c1.well_formed) (h2 : c2.well_formed)
    (h : commit_content c1 = commit_content c2) :
    c1.message = c2.message ∧ c1.timestamp = c2.timestamp ∧ c1.parent = c2.parent ∧
      c1.files = c2.files := by
  rw [commit_content_tail c1, commit_content_tail c2] at h
  have h' := List.append_cancel_left h
  have htail : tail_lines c1 = tail_lines c2 := by
    rcases List.append_eq_append_iff.mp h' with ⟨d, _, hd⟩ | ⟨d, _, hd⟩
    · exact tail_eq_of_append c1 c2 h1 h2 d hd
    · exact (tail_eq_of_append c2 c1 h2 h1 d hd).symm
  have hm : c1.message = c2.message := by
    rw [htail] at h'
    exact List.append_cancel_right h'
  simp only [tail_lines, List.cons.injEq] at htail
  obtain ⟨ht, hp, _, hf⟩ := htail
  exact ⟨hm, List.append_cancel_left ht, List.append_cancel_left hp,
    file_lines_inj _ _ (fun e he => (h1.2.2 e he).1) (fun e he => (h2.2.2 e he).1) hf⟩

/-! ## The history walk over a chain of commits -/

theorem Linked.next_parent {SHA1 : Str → List Nat} {chain : List Str}
    (h : Linked SHA1 chain) (i : Nat) (r r' : Str) (hr : chain.get? i = some r)
    (hr' : chain.get? (i + 1) = some r') :
    (parse_commit r).parent = calculate_hash SHA1 r' := by
  induction chain generalizing i with
  | nil => simp at hr
  | cons a rest ih =>
    cases rest with
    | nil => simp at hr'
    | cons b rest' =>
      cases i with
      | zero =>
        simp only [List.get?_cons_zero, Option.some.injEq] at hr
        simp only [List.get?_cons_succ, List.get?_cons_zero, Option.some.injEq] at hr'
        subst hr
        subst hr'
        exact h.1
      | succ j =>
        simp only [List.get?_cons_succ] at hr hr'
        exact ih h.2 j hr (by simpa using hr')

/-! ## The commands keep the chain -/

theorem read_file_some (fs : FS) (p c : Str) (h : read_file fs p = some c) :
    ∃ x, fs p = some (Node.file true x) ∧ c = cstr x := by
  unfold read_file at h
  split at h
  · rename_i x hx
    exact ⟨x, hx, by simpa using h.symm⟩
  · simp at h

theorem cmd_init_of_repo (fs : FS) (hr : Repo fs) : (cmd_init fs).1 = fs := by
  have hd : dir_exists fs minigit_dir = true := by simp [dir_exists, hr.root]
  simp [cmd_init, hd]

theorem digitChar_ne_newline : ∀ m, m < 10 → Nat.digitChar m ≠ '\n' := by
  decide

theorem toDigitsCore_no_newline (fuel n : Nat) (ds : List Char) (h : '\n' ∉ ds) :
    '\n' ∉ Nat.toDigitsCore 10 fuel n ds := by
  induction fuel generalizing n ds with
  | zero => simpa [Nat.toDigitsCore] using h
  | succ fuel ih =>
    have hd : '\n' ∉ Nat.digitChar (n % 10) :: ds := by
      intro hm
      rcases List.mem_cons.mp hm with e | hm
      · exact digitChar_ne_newline (n % 10) (Nat.mod_lt _ (by decide)) e.symm
      · exact h hm
    simp only [Nat.toDigitsCore]
    split
    · exact hd
    · exact ih _ _ hd

theorem toDigits_no_newline (n : Nat) : '\n' ∉ Nat.toDigits 10 n :=
  toDigitsCore_no_newline _ _ _ (by simp)

theorem dec2_no_newline (n : Nat) : '\n' ∉ dec2 n := by
  unfold dec2 List.leftpad
  intro h
  rcases List.mem_append.mp h with h | h
  · have := List.eq_of_mem_replicate h
    exact absurd this (by decide)
  · exact toDigits_no_newline n h

theorem strftime_no_newline (t : Tm) : '\n' ∉ strftime t := by
  unfold strftime
  have hy := toDigits_no_newline t.year
  have h1 := dec2_no_newline t.month
  have h2 := dec2_no_newline t.day
  have h3 := dec2_no_newline t.hour
  have h4 := dec2_no_newline t.minute
  have h5 := dec2_no_newline t.second
  simp [hy, h1, h2, h3, h4, h5]

/-! ## What `cmd_commit` does in an initialised repository -/

theorem cmd_commit_eq (SHA1 : Str → List Nat) (fs : FS) (message : Str) (now : Tm)
    (hr : Repo fs) (hne : read_index fs ≠ []) (hfit : commit_fits fs message now) :
    cmd_commit SHA1 fs message now =
      some (Function.update
        (Function.update
          (Function.update fs
            (object_path (calculate_hash SHA1 (commit_record fs message now)))
            (some (Node.file true (bytes (commit_record fs message now)))))
          main_path
          (some (Node.file true (bytes (calculate_hash SHA1 (commit_record fs message now))))))
        index_path (some (Node.file true (bytes []))),
       "Committed changes: ".toList ++
         (calculate_hash SHA1 (commit_record fs message now)).take 7 ++
         " - ".toList ++ message ++ ['\n']) := by
  have hd : dir_exists fs minigit_dir = true := by simp [dir_exists, hr.root]
  have hlen : ¬ (read_index fs).length = 0 := by
    intro h; exact hne (List.length_eq_zero.mp h)
  unfold cmd_commit
  simp only [hd, Bool.not_true, Bool.false_eq_true, if_false, hlen, hfit, if_true]
  rw [hr.write_object _ _ (calculate_hash_no_slash SHA1 _)]
  simp only []
  rw [(hr.update_object _ _).write_main]
  simp only []
  rw [((hr.update_object _ _).update_main _).write_index]
  rfl

theorem cmd_commit_none (SHA1 : Str → List Nat) (fs : FS) (message : Str) (now : Tm)
    (hd : dir_exists fs minigit_dir = true) (hne : read_index fs ≠ [])
    (hfit : ¬ commit_fits fs message now) : cmd_commit SHA1 fs message now = none := by
  have hlen : ¬ (read_index fs).length = 0 := by
    intro h; exact hne (List.length_eq_zero.mp h)
  unfold cmd_commit
  simp only [hd, Bool.not_true, Bool.false_eq_true, if_false, hlen, hfit]

theorem cmd_commit_empty (SHA1 : Str → List Nat) (fs : FS) (message : Str) (now : Tm)
    (hd : dir_exists fs minigit_dir = true) (hi : read_index fs = []) :
    cmd_commit SHA1 fs message now = some (fs, "Nothing to commit\n".toList) := by
  simp [cmd_commit, hd, hi]

/-- C9: in an initialised repository whose staging index is empty (`read_index`
returns no entry), `cmd_commit` reports "Nothing to commit" and returns the file
system unchanged: the branch reference, the object store and the index file
are as before. -/
theorem cmd_commit_nothing (SHA1 : Str → List Nat) (fs : FS) (message : Str) (now : Tm)
    (hd : dir_exists fs minigit_dir = true) (hi : read_index fs = []) :
    cmd_commit SHA1 fs message now = some (fs, "Nothing to commit\n".toList) ∧
    (cmd_commit SHA1 fs message now).map (fun r => r.1 main_path) = some (fs main_path) ∧
    (cmd_commit SHA1 fs message now).map (fun r => get_head_commit r.1) =
      some (get_head_commit fs) ∧
    (∀ h, (cmd_commit SHA1 fs message now).map (fun r => r.1 (object_path h)) =
      some (fs (object_path h))) ∧
    (cmd_commit SHA1 fs message now).map (fun r => r.1 index_path) = some (fs index_path) := by
  rw [cmd_commit_empty SHA1 fs message now hd hi]
  exact ⟨rfl, rfl, rfl, fun _ => rfl, rfl⟩

theorem cmd_commit_nothing_witness :
    cmd_commit toy_sha (cmd_init fs_empty).1 "first".toList ⟨2024, 1, 1, 0, 0, 0⟩ =
      some ((cmd_init fs_empty).1, "Nothing to commit\n".toList) ∧
    (cmd_commit toy_sha (cmd_init fs_empty).1 "first".toList ⟨2024, 1, 1, 0, 0, 0⟩).map
      (fun r => r.1 main_path) = some ((cmd_init fs_empty).1 main_path) ∧
    (cmd_commit toy_sha (cmd_init fs_empty).1 "first".toList ⟨2024, 1, 1, 0, 0, 0⟩).map
      (fun r => get_head_commit r.1) = some (get_head_commit (cmd_init fs_empty).1) ∧
    (∀ h, (cmd_commit toy_sha (cmd_init fs_empty).1 "first".toList ⟨2024, 1, 1, 0, 0, 0⟩).map
      (fun r => r.1 (object_path h)) = some ((cmd_init fs_empty).1 (object_path h))) ∧
    (cmd_commit toy_sha (cmd_init fs_empty).1 "first".toList ⟨2024, 1, 1, 0, 0, 0⟩).map
      (fun r => r.1 index_path) = some ((cmd_init fs_empty).1 index_path) :=
  cmd_commit_nothing toy_sha (cmd_init fs_empty).1 "first".toList ⟨2024, 1, 1, 0, 0, 0⟩
    (by decide) (by decide)

/-- C13 (as stated, refuted): `add` outside a repository prints its diagnostic
but `main` returns 0; so do `add` of a missing file and `commit` with an empty
staging index in an initialised repository. -/
theorem main_failure_counterexample :
    (main toy_sha ⟨2024, 1, 1, 0, 0, 0⟩ fs_empty
        ["minigit".toList, "add".toList, "a.txt".toList]).map (fun r => (r.out, r.status)) =
      some (msg_not_a_repository, 0) ∧
    (main toy_sha ⟨2024, 1, 1, 0, 0, 0⟩ (cmd_init fs_empty).1
        ["minigit".toList, "add".toList, "a.txt".toList]).map (fun r => (r.out, r.status)) =
      some ("File 'a.txt' not found\n".toList, 0) ∧
    (main toy_sha ⟨2024, 1, 1, 0, 0, 0⟩ (cmd_init fs_empty).1
        ["minigit".toList, "commit".toList, "first".toList]).map
          (fun r => (r.out, r.status)) =
      some ("Nothing to commit\n".toList, 0) := by
  decide

/-- C13 (amended): when a command fails (`add`, `commit`, `status` or `log`
where no repository exists; `add` of a path that is not an existing file;
`commit` with an empty staging index), the program prints the diagnostic of
that command, leaves the file system unchanged, and `main` returns 0. -/
theorem main_failure (SHA1 : Str → List Nat) (now : Tm) (fs : FS) (prog arg : Str)
    (rest : List Str) :
    (dir_exists fs minigit_dir = false →
      main SHA1 now fs (prog :: "add".toList :: arg :: rest) =
        some ⟨fs, msg_not_a_repository, 0⟩ ∧
      main SHA1 now fs (prog :: "commit".toList :: arg :: rest) =
        some ⟨fs, msg_not_a_repository, 0⟩ ∧
      main SHA1 now fs (prog :: "status".toList :: rest) = some ⟨fs, msg_not_a_repository, 0⟩ ∧
      main SHA1 now fs (prog :: "log".toList :: rest) = some ⟨fs, msg_not_a_repository, 0⟩) ∧
    (dir_exists fs minigit_dir = true → file_exists fs arg = false →
      main SHA1 now fs (prog :: "add".toList :: arg :: rest) =
        some ⟨fs, "File '".toList ++ arg ++ "' not found\n".toList, 0⟩) ∧
    (dir_exists fs minigit_dir = true → read_index fs = [] →
      main SHA1 now fs (prog :: "commit".toList :: arg :: rest) =
        some ⟨fs, "Nothing to commit\n".toList, 0⟩) := by
  refine ⟨?_, ?_, ?_⟩
  · intro hd
    refine ⟨?_, ?_, ?_, ?_⟩
    · simp [main, cmd_add, hd]
    · simp [main, cmd_commit, hd]
    · simp [main, cmd_status, hd]
    · simp [main, cmd_log, hd]
  · intro hd hf
    simp [main, cmd_add, hd, hf]
  · intro hd hi
    simp [main, cmd_commit, hd, hi]

theorem main_failure_witness :
    (main toy_sha ⟨2024, 1, 1, 0, 0, 0⟩ fs_empty
        ["minigit".toList, "log".toList] = some ⟨fs_empty, msg_not_a_repository, 0⟩) ∧
    (main toy_sha ⟨2024, 1, 1, 0, 0, 0⟩ (cmd_init fs_empty).1
        ["minigit".toList, "add".toList, "a.txt".toList] =
      some ⟨(cmd_init fs_empty).1,
        "File '".toList ++ "a.txt".toList ++ "' not found\n".toList, 0⟩) ∧
    (main toy_sha ⟨2024, 1, 1, 0, 0, 0⟩ (cmd_init fs_empty).1
        ["minigit".toList, "commit".toList, "first".toList] =
      some ⟨(cmd_init fs_empty).1, "Nothing to commit\n".toList, 0⟩) :=
  ⟨((main_failure toy_sha ⟨2024, 1, 1, 0, 0, 0⟩ fs_empty "minigit".toList []
      []).1 (by decide)).2.2.2,
   (main_failure toy_sha ⟨2024, 1, 1, 0, 0, 0⟩ (cmd_init fs_empty).1 "minigit".toList
      "a.txt".toList []).2.1 (by decide) (by decide),
   (main_failure toy_sha ⟨2024, 1, 1, 0, 0, 0⟩ (cmd_init fs_empty).1 "minigit".toList
      "first".toList []).2.2 (by decide) (by decide)⟩

/-! ## Runs of the program -/

theorem cmd_commit_cases (SHA1 : Str → List Nat) (fs : FS) (message : Str) (now : Tm)
    (hr : Repo fs) (r : FS × Str) (h : cmd_commit SHA1 fs message now = some r) :
    (read_index fs = [] ∧ r.1 = fs) ∨
    (read_index fs ≠ [] ∧ commit_fits fs message now ∧
      r.1 = Function.update
        (Function.update
          (Function.update fs
            (object_path (calculate_hash SHA1 (commit_record fs message now)))
            (some (Node.file true (bytes (commit_record fs message now)))))
          main_path
          (some (Node.file true (bytes (calculate_hash SHA1 (commit_record fs message now))))))
        index_path (some (Node.file true (bytes [])))) := by
  have hd : dir_exists fs minigit_dir = true := by simp [dir_exists, hr.root]
  by_cases hi : read_index fs = []
  · left
    rw [cmd_commit_empty SHA1 fs message now hd hi] at h
    simp only [Option.some.injEq] at h
    exact ⟨hi, by rw [← h]⟩
  · right
    by_cases hfit : commit_fits fs message now
    · rw [cmd_commit_eq SHA1 fs message now hr hi hfit] at h
      simp only [Option.some.injEq] at h
      exact ⟨hi, hfit, by rw [← h]⟩
    · rw [cmd_commit_none SHA1 fs message now hd hi hfit] at h
      simp at h

theorem cmd_commit_repo (SHA1 : Str → List Nat) (fs : FS) (message : Str) (now : Tm)
    (hr : Repo fs) (r : FS × Str) (h : cmd_commit SHA1 fs message now = some r) : Repo r.1 := by
  rcases cmd_commit_cases SHA1 fs message now hr r h with ⟨_, h1⟩ | ⟨_, _, h1⟩
  · rw [h1]; exact hr
  · rw [h1]
    exact ((hr.update_object _ _).update_main _).update_index _

theorem step_commit_some (SHA1 : Str → List Nat) (fs next : FS) (message : Str) (now : Tm)
    (h : step SHA1 fs (Step.commit message now) = some next) :
    ∃ r, cmd_commit SHA1 fs message now = some r ∧ r.1 = next := by
  simp only [step] at h
  cases hc : cmd_commit SHA1 fs message now with
  | none => rw [hc] at h; simp at h
  | some r =>
    rw [hc] at h
    simp only [Option.some.injEq] at h
    exact ⟨r, rfl, h⟩

theorem Repo.of_step {SHA1 : Str → List Nat} {fs next : FS} (hr : Repo fs) (s : Step)
    (hs : s.outside) (h : step SHA1 fs s = some next) : Repo next := by
  cases s with
  | init =>
    simp only [step, Option.some.injEq] at h
    rw [← h, cmd_init_of_repo fs hr]
    exact hr
  | save p x =>
    simp only [step, Option.some.injEq] at h
    rw [← h]
    exact hr.user_save p x hs
  | add p =>
    simp only [step, Option.some.injEq] at h
    rw [← h]
    exact cmd_add_repo SHA1 fs p hr
  | commit m now =>
    obtain ⟨r, hc, hn⟩ := step_commit_some SHA1 fs next m now h
    rw [← hn]
    exact cmd_commit_repo SHA1 fs m now hr r hc

theorem run_cons_some (SHA1 : Str → List Nat) (fs last : FS) (s : Step) (rest : List Step)
    (h : run SHA1 fs (s :: rest) = some last) :
    ∃ next, step SHA1 fs s = some next ∧ run SHA1 next rest = some last := by
  simp only [run] at h
  cases hs : step SHA1 fs s with
  | none => rw [hs] at h; simp at h
  | some next =>
    rw [hs] at h
    exact ⟨next, rfl, h⟩

theorem Repo.of_run {SHA1 : Str → List Nat} {fs last : FS} (hr : Repo fs)
    (steps : List Step) (hs : ∀ s ∈ steps, s.outside) (h : run SHA1 fs steps = some last) :
    Repo last := by
  induction steps generalizing fs with
  | nil =>
    simp only [run, Option.some.injEq] at h
    rw [← h]; exact hr
  | cons s rest ih =>
    obtain ⟨next, h1, h2⟩ := run_cons_some SHA1 fs last s rest h
    exact ih (hr.of_step s (hs s (List.mem_cons_self s rest)) h1)
      (fun x hx => hs x (List.mem_cons_of_mem s hx)) h2

theorem repo_after_init_run (SHA1 : Str → List Nat) (last : FS) (rest : List Step)
    (hs : ∀ s ∈ rest, s.outside) (h : run SHA1 fs_empty (Step.init :: rest) = some last) :
    Repo last := by
  have h' : run SHA1 (cmd_init fs_empty).1 rest = some last := h
  exact repo_init_empty.of_run rest hs h'

theorem some_getD_of_isSome {α : Type} (o : Option α) (d : α) (h : o.isSome = true) :
    o = some (o.getD d) := by
  cases o with
  | none => simp at h
  | some a => rfl

theorem run_staged : run toy_sha fs_empty staged_steps = some fs_staged :=
  some_getD_of_isSome _ _ (by decide!)

theorem repo_fs_staged : Repo fs_staged :=
  repo_after_init_run toy_sha fs_staged _ (by decide) run_staged

theorem built_commit_wf (fs : FS) (message : Str) (now : Tm) :
    (built_commit fs message now).well_formed :=
  ⟨strftime_no_newline now, head_getD_no_newline fs, read_index_wf fs⟩

theorem commit_record_parent (fs : FS) (message : Str) (now : Tm) :
    (parse_commit (commit_record fs message now)).parent = (get_head_commit fs).getD [] :=
  parse_commit_parent _ (head_getD_no_newline fs) (read_index_wf fs)

theorem parse_commit_record (fs : FS) (message : Str) (now : Tm) (hm : '\n' ∉ message) :
    parse_commit (commit_record fs message now) = built_commit fs message now :=
  parse_commit_content (built_commit fs message now) (read_index_length fs) hm
    (strftime_no_newline now) (head_getD_no_newline fs) (read_index_wf fs)

/-! ## The size of a record -/

theorem length_flatMap_file_line (es : List IndexEntry) :
    (es.flatMap file_line).length =
      (es.map (fun e => e.filename.length + e.hash.length + 4)).sum := by
  induction es with
  | nil => rfl
  | cons e es ih =>
    rw [List.flatMap_cons, List.length_append, ih]
    simp only [file_line, List.map_cons, List.sum_cons, List.length_append, List.length_cons,
      List.length_nil, String.toList]
    have : "  ".data.length = 2 := rfl
    omega

theorem commit_content_length (c : Commit) :
    (commit_content c).length =
      38 + c.message.length + c.timestamp.length + c.parent.length +
        (c.files.map (fun e => e.filename.length + e.hash.length + 4)).sum := by
  unfold commit_content
  simp only [List.length_append, List.length_cons, length_flatMap_file_line]
  have h1 : "message: ".toList.length = 9 := rfl
  have h2 : "timestamp: ".toList.length = 11 := rfl
  have h3 : "parent: ".toList.length = 8 := rfl
  have h4 : "files:\n".toList.length = 7 := rfl
  omega

/-! ## Staging many files -/

theorem get_head_commit_cmd_add (SHA1 : Str → List Nat) (fs : FS) (p : Str) (hr : Repo fs) :
    get_head_commit (cmd_add SHA1 fs p).1 = get_head_commit fs := by
  cases hread : read_file fs p with
  | none => rw [cmd_add_unreadable SHA1 fs p hread]
  | some c =>
    obtain ⟨x, hx, _⟩ := read_file_some fs p c hread
    rw [cmd_add_eq SHA1 fs p x hr hx]
    simp only []
    rw [get_head_commit_update_ne _ _ _ (by decide),
      get_head_commit_update_ne _ _ _ (main_ne_object _)]

theorem get_head_commit_user_save (fs : FS) (p : Str) (x : List Byte) (hp : ¬ inside p) :
    get_head_commit (user_save fs p x) = get_head_commit fs := by
  have hne : main_path ≠ p := by
    intro e
    apply hp
    rw [← e]
    decide
  exact get_head_commit_update_ne _ _ _ hne

theorem add_files_spec (SHA1 : Str → List Nat) (paths : List Str) (fs : FS) (hr : Repo fs)
    (hwf : ∀ p ∈ paths, ' ' ∉ p ∧ '\n' ∉ p ∧ ¬ inside p) (hnodup : paths.Nodup)
    (hnew : ∀ p ∈ paths, ∀ e ∈ read_index fs, e.filename ≠ p)
    (hlen : (read_index fs).length + paths.length ≤ MAX_FILES) :
    Repo (add_files SHA1 fs paths) ∧
    read_index (add_files SHA1 fs paths) =
      read_index fs ++ paths.map (fun p => ⟨p, calculate_hash SHA1 "x".toList⟩) ∧
    get_head_commit (add_files SHA1 fs paths) = get_head_commit fs := by
  induction paths generalizing fs with
  | nil => exact ⟨hr, by simp [add_files], rfl⟩
  | cons p rest ih =>
    obtain ⟨hsp, hnl, hout⟩ := hwf p (List.mem_cons_self p rest)
    have hr1 : Repo (user_save fs p (bytes "x".toList)) := hr.user_save p _ hout
    have hi1 : read_index (user_save fs p (bytes "x".toList)) = read_index fs :=
      read_index_user_save fs p _ hout
    have hlt : (read_index fs).length < MAX_FILES := by
      simp only [List.length_cons] at hlen; omega
    have hi2 : read_index (cmd_add SHA1 (user_save fs p (bytes "x".toList)) p).1 =
        read_index fs ++ [⟨p, calculate_hash SHA1 "x".toList⟩] := by
      rw [read_index_cmd_add_wf SHA1 _ p (bytes "x".toList) hr1 (user_save_same _ _ _)
        (Or.inl ⟨hsp, hnl⟩), hi1, cstr_bytes,
        stage_absent _ _ _ (hnew p (List.mem_cons_self p rest)), if_pos hlt]
    have hr2 : Repo (cmd_add SHA1 (user_save fs p (bytes "x".toList)) p).1 :=
      cmd_add_repo SHA1 _ p hr1
    have hh2 : get_head_commit (cmd_add SHA1 (user_save fs p (bytes "x".toList)) p).1 =
        get_head_commit fs := by
      rw [get_head_commit_cmd_add SHA1 _ p hr1, get_head_commit_user_save fs p _ hout]
    have hnd := List.nodup_cons.mp hnodup
    obtain ⟨h1, h2, h3⟩ := ih (cmd_add SHA1 (user_save fs p (bytes "x".toList)) p).1 hr2
      (fun q hq => hwf q (List.mem_cons_of_mem p hq)) hnd.2
      (by
        intro q hq e he
        rw [hi2] at he
        rcases List.mem_append.mp he with he | he
        · exact hnew q (List.mem_cons_of_mem p hq) e he
        · simp only [List.mem_singleton] at he
          subst he
          intro hpq
          have hpq2 : p = q := hpq
          rw [hpq2] at hnd
          exact hnd.1 hq)
      (by
        rw [hi2]
        simp only [List.length_append, List.length_cons, List.length_nil] at hlen ⊢
        omega)
    refine ⟨h1, ?_, ?_⟩
    · show read_index (add_files SHA1 (cmd_add SHA1 (user_save fs p (bytes "x".toList)) p).1
        rest) = _
      rw [h2, hi2]
      simp
    · show get_head_commit (add_files SHA1
        (cmd_add SHA1 (user_save fs p (bytes "x".toList)) p).1 rest) = _
      rw [h3, hh2]

theorem hundred_paths_ok :
    (∀ p ∈ hundred_paths, ' ' ∉ p ∧ '\n' ∉ p ∧ ¬ inside p) ∧ hundred_paths.Nodup ∧
    hundred_paths.length = 100 ∧ (hundred_paths.map (fun p => p.length + 44)).sum = 4690 := by
  decide!

/-- One hundred staged files: the repository is intact, the index holds the
hundred entries, and no commit of them fits the record buffer. -/
theorem hundred_staged (SHA1 : Str → List Nat) :
    Repo (add_files SHA1 (cmd_init fs_empty).1 hundred_paths) ∧
    read_index (add_files SHA1 (cmd_init fs_empty).1 hundred_paths) =
      hundred_paths.map (fun p => ⟨p, calculate_hash SHA1 "x".toList⟩) ∧
    ∀ message now, (commit_record (add_files SHA1 (cmd_init fs_empty).1 hundred_paths)
      message now).length ≥ 4728 := by
  obtain ⟨hwf, hnd, hlen, hsum⟩ := hundred_paths_ok
  have h0 : read_index (cmd_init fs_empty).1 = [] := by decide
  obtain ⟨h1, h2, h3⟩ := add_files_spec SHA1 hundred_paths (cmd_init fs_empty).1 repo_init_empty
    hwf hnd (by rw [h0]; simp) (by rw [h0, hlen]; decide)
  rw [h0, List.nil_append] at h2
  refine ⟨h1, h2, ?_⟩
  intro message now
  unfold commit_record
  rw [commit_content_length]
  simp only [built_commit, h2, List.map_map]
  have hs : (List.map ((fun e : IndexEntry => e.filename.length + e.hash.length + 4) ∘
      fun p => (⟨p, calculate_hash SHA1 "x".toList⟩ : IndexEntry)) hundred_paths).sum =
      (hundred_paths.map (fun p => p.length + 44)).sum := by
    congr 1
  rw [hs, hsum]
  omega

/-- C5: for every commit that `cmd_commit` builds (from any state, any clock
value and any message) whose message holds no newline, `parse_commit` applied
to the text `cmd_commit` serializes for it returns the same message, timestamp
and parent and the same file entries in the same order. -/
theorem commit_roundtrip (fs : FS) (message : Str) (now : Tm) (hm : '\n' ∉ message) :
    parse_commit (commit_record fs message now) = built_commit fs message now ∧
    (parse_commit (commit_record fs message now)).message = message ∧
    (parse_commit (commit_record fs message now)).timestamp = strftime now ∧
    (parse_commit (commit_record fs message now)).parent = (get_head_commit fs).getD [] ∧
    (parse_commit (commit_record fs message now)).files = read_index fs := by
  rw [parse_commit_record fs message now hm]
  exact ⟨rfl, rfl, rfl, rfl, rfl⟩

theorem commit_roundtrip_witness :
    '\n' ∉ "second".toList ∧
    get_head_commit fs_staged = some (calculate_hash toy_sha
      (commit_record (cmd_add toy_sha fs_hello "a.txt".toList).1 "first".toList
        ⟨2024, 1, 1, 9, 30, 0⟩)) ∧
    read_index fs_staged =
      [⟨"a.txt".toList, calculate_hash toy_sha "hello again".toList⟩,
       ⟨"b.txt".toList, calculate_hash toy_sha "bye".toList⟩] ∧
    strftime ⟨2024, 1, 2, 18, 5, 59⟩ = "2024-01-02 18:05:59".toList ∧
    parse_commit (commit_record fs_staged "second".toList ⟨2024, 1, 2, 18, 5, 59⟩) =
      built_commit fs_staged "second".toList ⟨2024, 1, 2, 18, 5, 59⟩ ∧
    (parse_commit (commit_record fs_staged "second".toList ⟨2024, 1, 2, 18, 5, 59⟩)).message =
      "second".toList ∧
    (parse_commit (commit_record fs_staged "second".toList ⟨2024, 1, 2, 18, 5, 59⟩)).timestamp =
      strftime ⟨2024, 1, 2, 18, 5, 59⟩ ∧
    (parse_commit (commit_record fs_staged "second".toList ⟨2024, 1, 2, 18, 5, 59⟩)).parent =
      (get_head_commit fs_staged).getD [] ∧
    (parse_commit (commit_record fs_staged "second".toList ⟨2024, 1, 2, 18, 5, 59⟩)).files =
      read_index fs_staged :=
  ⟨by decide, by decide!, by decide!, by decide,
    commit_roundtrip fs_staged "second".toList ⟨2024, 1, 2, 18, 5, 59⟩ (by decide)⟩

/-- C6: the commit serialization of `cmd_commit` is injective: two commits
that `cmd_commit` builds (from any states, clock values and messages) and that
differ in message, timestamp, parent or file list have different serialized
records, so that, the digest being collision-free on these two records, they
have different commit hashes. -/
theorem commit_content_injective (fs1 fs2 : FS) (m1 m2 : Str) (t1 t2 : Tm)
    (hne : m1 ≠ m2 ∨ strftime t1 ≠ strftime t2 ∨
      (get_head_commit fs1).getD [] ≠ (get_head_commit fs2).getD [] ∨
      read_index fs1 ≠ read_index fs2) :
    commit_record fs1 m1 t1 ≠ commit_record fs2 m2 t2 ∧
    ∀ SHA1 : Str → List Nat,
      CollisionFree SHA1 [commit_record fs1 m1 t1, commit_record fs2 m2 t2] →
      calculate_hash SHA1 (commit_record fs1 m1 t1) ≠
        calculate_hash SHA1 (commit_record fs2 m2 t2) := by
  have hrec : commit_record fs1 m1 t1 ≠ commit_record fs2 m2 t2 := by
    intro h
    obtain ⟨hm, ht, hp, hf⟩ := commit_content_inj _ _ (built_commit_wf fs1 m1 t1)
      (built_commit_wf fs2 m2 t2) h
    rcases hne with h | h | h | h
    · exact h hm
    · exact h ht
    · exact h hp
    · exact h hf
  refine ⟨hrec, fun SHA1 hcf hh => hrec ?_⟩
  exact hcf _ (by simp) _ (by simp) hh

theorem commit_content_injective_witness :
    ("second".toList ≠ "second\nparent: 00".toList ∨
      strftime ⟨2024, 1, 2, 18, 5, 59⟩ ≠ strftime ⟨2024, 1, 2, 18, 5, 59⟩ ∨
      (get_head_commit fs_staged).getD [] ≠ (get_head_commit fs_staged).getD [] ∨
      read_index fs_staged ≠ read_index fs_staged) ∧
    commit_record fs_staged "second".toList ⟨2024, 1, 2, 18, 5, 59⟩ ≠
      commit_record fs_staged "second\nparent: 00".toList ⟨2024, 1, 2, 18, 5, 59⟩ ∧
    CollisionFree toy_sha
      [commit_record fs_staged "second".toList ⟨2024, 1, 2, 18, 5, 59⟩,
       commit_record fs_staged "second\nparent: 00".toList ⟨2024, 1, 2, 18, 5, 59⟩] ∧
    calculate_hash toy_sha (commit_record fs_staged "second".toList ⟨2024, 1, 2, 18, 5, 59⟩) ≠
      calculate_hash toy_sha
        (commit_record fs_staged "second\nparent: 00".toList ⟨2024, 1, 2, 18, 5, 59⟩) :=
  ⟨Or.inl (by decide),
   (commit_content_injective fs_staged fs_staged "second".toList "second\nparent: 00".toList
      ⟨2024, 1, 2, 18, 5, 59⟩ ⟨2024, 1, 2, 18, 5, 59⟩ (Or.inl (by decide))).1,
   by decide!,
   (commit_content_injective fs_staged fs_staged "second".toList "second\nparent: 00".toList
      ⟨2024, 1, 2, 18, 5, 59⟩ ⟨2024, 1, 2, 18, 5, 59⟩ (Or.inl (by decide))).2 toy_sha
      (by decide!)⟩

/-- C4: in an initialised repository with a non-empty staging index, when the
commit fits the buffers of `cmd_commit` (message, timestamp, parent and the
4096-byte record), `cmd_commit` returns, the branch reference read by
`get_head_commit` is then the fingerprint of the serialized commit record,
`read_object` of that fingerprint returns the record, the parent field parsed
from the record is the branch reference value from before the commit (empty
when there was none) and the record lists the staged entries in index order.
With the hundred files `f0 .. f99` staged in a fresh repository, which
`cmd_add` and `read_index` allow, the record needs at least 4728 bytes: it does
not fit the buffer and `cmd_commit` has no defined result, for any message,
clock value and digest. -/
theorem cmd_commit_spec :
    (∀ (SHA1 : Str → List Nat) (fs : FS) (message : Str) (now : Tm),
      Repo fs → read_index fs ≠ [] → commit_fits fs message now →
      ∃ (record : Str) (out : Str) (next : FS),
        record = commit_content
          ⟨[], message, strftime now, (get_head_commit fs).getD [], read_index fs⟩ ∧
        cmd_commit SHA1 fs message now = some (next, out) ∧
        get_head_commit next = some (calculate_hash SHA1 record) ∧
        read_object next (calculate_hash SHA1 record) = some record ∧
        (parse_commit record).parent = (get_head_commit fs).getD [] ∧
        (get_head_commit fs = none → (parse_commit record).parent = []) ∧
        ('\n' ∉ message →
          (parse_commit record).files = read_index fs ∧
          (parse_commit record).message = message)) ∧
    (∀ (SHA1 : Str → List Nat) (message : Str) (now : Tm),
      Repo (add_files SHA1 (cmd_init fs_empty).1 hundred_paths) ∧
      read_index (add_files SHA1 (cmd_init fs_empty).1 hundred_paths) =
        hundred_paths.map (fun p => ⟨p, calculate_hash SHA1 "x".toList⟩) ∧
      (read_index (add_files SHA1 (cmd_init fs_empty).1 hundred_paths)).length = MAX_FILES ∧
      RECORD_SIZE + 632 ≤
        (commit_record (add_files SHA1 (cmd_init fs_empty).1 hundred_paths)
          message now).length ∧
      cmd_commit SHA1 (add_files SHA1 (cmd_init fs_empty).1 hundred_paths) message now =
        none) := by
  constructor
  · intro SHA1 fs message now hr hne hfit
    refine ⟨_, _, _, rfl, cmd_commit_eq SHA1 fs message now hr hne hfit, ?_, ?_, ?_, ?_, ?_⟩
    · rw [get_head_commit_update_ne _ _ _ (by decide),
        get_head_commit_update_same _ _ (calculate_hash_no_newline SHA1 _)]
      rfl
    · show read_object _ (calculate_hash SHA1 (commit_record fs message now)) = _
      rw [read_object_update_ne _ _ _ _ (index_ne_object _).symm,
        read_object_update_ne _ _ _ _ (main_ne_object _).symm, read_object_update_same]
      rfl
    · exact commit_record_parent fs message now
    · intro hnone
      have h := commit_record_parent fs message now
      rw [hnone] at h
      exact h
    · intro hm
      have h := parse_commit_record fs message now hm
      exact ⟨congrArg Commit.files h, congrArg Commit.message h⟩
  · intro SHA1 message now
    obtain ⟨hr, hidx, hsize⟩ := hundred_staged SHA1
    have hlen : (read_index (add_files SHA1 (cmd_init fs_empty).1 hundred_paths)).length
        = MAX_FILES := by
      rw [hidx, List.length_map]
      exact hundred_paths_ok.2.2.1
    have hlong := hsize message now
    refine ⟨hr, hidx, hlen, ?_, ?_⟩
    · simp only [RECORD_SIZE]
      omega
    · apply cmd_commit_none
      · simp [dir_exists, hr.root]
      · intro h
        rw [h] at hlen
        simp [MAX_FILES] at hlen
      · intro hfit
        have h4 := hfit.2.2.2
        simp only [RECORD_SIZE] at h4
        omega

theorem cmd_commit_spec_witness :
    Repo fs_staged ∧
    read_index fs_staged =
      [⟨"a.txt".toList, calculate_hash toy_sha "hello again".toList⟩,
       ⟨"b.txt".toList, calculate_hash toy_sha "bye".toList⟩] ∧
    (get_head_commit fs_staged).isSome = true ∧
    ∃ (record : Str) (out : Str) (next : FS),
      record = commit_content
        ⟨[], "second".toList, strftime ⟨2024, 1, 2, 18, 5, 59⟩,
          (get_head_commit fs_staged).getD [], read_index fs_staged⟩ ∧
      cmd_commit toy_sha fs_staged "second".toList ⟨2024, 1, 2, 18, 5, 59⟩ =
        some (next, out) ∧
      get_head_commit next = some (calculate_hash toy_sha record) ∧
      read_object next (calculate_hash toy_sha record) = some record ∧
      (parse_commit record).parent = (get_head_commit fs_staged).getD [] ∧
      (get_head_commit fs_staged = none → (parse_commit record).parent = []) ∧
      ('\n' ∉ "second".toList →
        (parse_commit record).files = read_index fs_staged ∧
        (parse_commit record).message = "second".toList) :=
  ⟨repo_fs_staged, by decide!, by decide!,
    cmd_commit_spec.1 toy_sha fs_staged "second".toList ⟨2024, 1, 2, 18, 5, 59⟩
      repo_fs_staged (by decide!) (by decide!)⟩

end MiniGit
